import Mathlib

/-
Verification development for the `codebase_analysis` repository.

The repository is a multi-agent static-analysis orchestrator: agents produce
result mappings, an orchestrator merges them keyed by agent name, and a
report generator fans the merged document out into json/html/md/pdf/docx
artifacts.  Python strings are embedded as `List Char`; Python dicts holding
JSON-safe data are embedded by the inductive type `Json` below; file-system
writes are embedded as an explicit list of (path, content) pairs produced by
the rendering functions.
-/

namespace CodebaseAnalysis

/-- Character-list form of a string literal (Python `str` is embedded as `List Char`). -/
def chars (s : String) : List Char := s.data

/-- The single-quote character (codepoint 39). -/
def squote : Char := Char.ofNat 39

/-- The double-quote character (codepoint 34). -/
def dquote : Char := Char.ofNat 34

/-- The backslash character. -/
def bslash : Char := '\\'

/-- The opening-brace character (codepoint 123). -/
def obrace : Char := Char.ofNat 123

/-- The closing-brace character (codepoint 125). -/
def cbrace : Char := Char.ofNat 125

/-- Hexadecimal digit characters, lowercase, as emitted by Python formatting. -/
def hexDigitChar : Nat → Char
  | 0 => '0' | 1 => '1' | 2 => '2' | 3 => '3' | 4 => '4'
  | 5 => '5' | 6 => '6' | 7 => '7' | 8 => '8' | 9 => '9'
  | 10 => 'a' | 11 => 'b' | 12 => 'c' | 13 => 'd' | 14 => 'e'
  | _ => 'f'

/-- Decimal digit string of a natural number, as produced by Python `str(int)`. -/
def natDigits (n : Nat) : List Char :=
  if h : n < 10 then [hexDigitChar n]
  else natDigits (n / 10) ++ [hexDigitChar (n % 10)]
  decreasing_by exact Nat.div_lt_self (by omega) (by omega)

/-- Decimal string of a Python integer (`str(int)`: minus sign for negatives). -/
def intDigits : Int → List Char
  | Int.ofNat n => natDigits n
  | Int.negSucc n => '-' :: natDigits (n + 1)

/-- Whitespace recognised by the Python `json` scanner: space, tab, newline, carriage return. -/
def isJsonWs (c : Char) : Bool :=
  c = ' ' || c = '\t' || c = '\n' || c = '\r'

/-- ASCII whitespace as matched by the regex class `\s` and by `str.strip`. -/
def isPyWs (c : Char) : Bool :=
  isJsonWs c || c = '\x0b' || c = '\x0c'

/-- Word characters for regex word boundaries (`\b` / `\w`): ASCII letters, digits, underscore. -/
def isWordChar (c : Char) : Bool :=
  c.isAlphanum || c = '_'

/-- Python `str.splitlines` restricted to newline separators: a trailing newline
does not open an extra final line, and the empty string has no lines. -/
def splitlines : List Char → List (List Char)
  | [] => []
  | c :: rest =>
    if c = '\n' then [] :: splitlines rest
    else
      match splitlines rest with
      | [] => [[c]]
      | l :: ls => (c :: l) :: ls

/-- Python `str.strip()`: drop leading and trailing whitespace. -/
def pyStrip (s : List Char) : List Char :=
  ((s.dropWhile isPyWs).reverse.dropWhile isPyWs).reverse

namespace PyJson

/-- JSON-safe Python values as built by the analysis pipeline and serialized by
`json.dumps`: `None`, booleans, integers, strings, lists and string-keyed
dicts.  Floats are outside the model (the pipeline's documents carry none). -/
inductive Json where
  | null
  | bool (b : Bool)
  | num (n : Int)
  | str (s : List Char)
  | arr (xs : List Json)
  | obj (kvs : List (List Char × Json))

instance : Inhabited Json := ⟨Json.null⟩

/-- Four lowercase hex digits of `n % 0x10000` (Python `'\\u%04x' % n`). -/
def escHex4 (n : Nat) : List Char :=
  [hexDigitChar (n / 4096 % 16), hexDigitChar (n / 256 % 16),
   hexDigitChar (n / 16 % 16), hexDigitChar (n % 16)]

/-- Escape of one character in `json.dumps`'s default (`ensure_ascii=True`)
string encoder: the two-character escapes of its escape table, printable ASCII
verbatim, `\\uXXXX` for the rest, with a surrogate pair beyond the BMP. -/
def escapeChar (c : Char) : List Char :=
  if c = dquote then [bslash, dquote]
  else if c = bslash then [bslash, bslash]
  else if c = '\x08' then [bslash, 'b']
  else if c = '\t' then [bslash, 't']
  else if c = '\n' then [bslash, 'n']
  else if c = '\x0c' then [bslash, 'f']
  else if c = '\r' then [bslash, 'r']
  else if 0x20 ≤ c.toNat ∧ c.toNat ≤ 0x7e then [c]
  else if c.toNat < 0x10000 then bslash :: 'u' :: escHex4 c.toNat
  else
    let u := c.toNat - 0x10000
    (bslash :: 'u' :: escHex4 (0xD800 + u / 0x400)) ++
      (bslash :: 'u' :: escHex4 (0xDC00 + u % 0x400))

/-- Escaped body of a JSON string. -/
def strBody (s : List Char) : List Char := (s.map escapeChar).flatten

/-- A JSON string token, quotes included. -/
def encodeStr (s : List Char) : List Char := dquote :: (strBody s ++ [dquote])

/-- The newline-plus-indentation separator of `json.dumps(indent=2)` at a
nesting level. -/
def nlIndent (lvl : Nat) : List Char := '\n' :: List.replicate (2 * lvl) ' '

mutual

/-- `json.dumps(v, indent=2)` at nesting level `lvl`. -/
def dumpsVal (lvl : Nat) : Json → List Char
  | .null => chars "null"
  | .bool true => chars "true"
  | .bool false => chars "false"
  | .num n => intDigits n
  | .str s => encodeStr s
  | .arr [] => ['[', ']']
  | .arr (x :: xs) =>
    '[' :: (nlIndent (lvl + 1) ++ (dumpsVal (lvl + 1) x ++ (dumpsItems (lvl + 1) xs ++
      (nlIndent lvl ++ [']']))))
  | .obj [] => [obrace, cbrace]
  | .obj (kv :: kvs) =>
    obrace :: (nlIndent (lvl + 1) ++ (encodeStr kv.1 ++ (':' :: ' ' :: dumpsVal (lvl + 1) kv.2 ++
      (dumpsPairs (lvl + 1) kvs ++ (nlIndent lvl ++ [cbrace])))))

/-- The remaining array items, each preceded by a comma and fresh indentation. -/
def dumpsItems (lvl : Nat) : List Json → List Char
  | [] => []
  | x :: xs => ',' :: (nlIndent lvl ++ (dumpsVal lvl x ++ dumpsItems lvl xs))

/-- The remaining object pairs, each preceded by a comma and fresh indentation. -/
def dumpsPairs (lvl : Nat) : List (List Char × Json) → List Char
  | [] => []
  | kv :: kvs =>
    ',' :: (nlIndent lvl ++ (encodeStr kv.1 ++ (':' :: ' ' :: dumpsVal lvl kv.2 ++
      dumpsPairs lvl kvs)))

end

/-- Serialization of a result document (a Python dict) with `json.dumps(results, indent=2)`. -/
def dumps (results : List (List Char × Json)) : List Char := dumpsVal 0 (.obj results)

/-- Whitespace skipping of the `json` scanner. -/
def skipWs (s : List Char) : List Char := s.dropWhile isJsonWs

/-- Hex digit value, accepting both cases as `int(c, 16)` does. -/
def hexVal (c : Char) : Option Nat :=
  if '0' ≤ c ∧ c ≤ '9' then some (c.toNat - 48)
  else if 'a' ≤ c ∧ c ≤ 'f' then some (c.toNat - 87)
  else if 'A' ≤ c ∧ c ≤ 'F' then some (c.toNat - 55)
  else none

/-- Prepend a decoded character to a string-parse result. -/
def consStr (c : Char) : Option (List Char × List Char) → Option (List Char × List Char)
  | some (s, r) => some (c :: s, r)
  | none => none

mutual

/-- `json.loads` string scanning after the opening quote: literal characters up
to the closing quote, with backslash escapes handled by `parseEsc`.  The fuel
argument (one unit per mutual call, so any fuel above four times the decoded
length suffices) makes the recursion structural; Python's scanner has no such
bound, so `loads` supplies a generous one. -/
def parseStr : Nat → List Char → Option (List Char × List Char)
  | 0, _ => none
  | _ + 1, [] => none
  | fuel + 1, c :: rest =>
    if c = dquote then some ([], rest)
    else if c = bslash then parseEsc fuel rest
    else consStr c (parseStr fuel rest)

/-- Escape handling after a backslash: the two-character escapes of the JSON
grammar, and `\\uXXXX` via `parseUEsc`. -/
def parseEsc : Nat → List Char → Option (List Char × List Char)
  | 0, _ => none
  | _ + 1, [] => none
  | fuel + 1, e :: r2 =>
    if e = dquote then consStr dquote (parseStr fuel r2)
    else if e = bslash then consStr bslash (parseStr fuel r2)
    else if e = '/' then consStr '/' (parseStr fuel r2)
    else if e = 'b' then consStr '\x08' (parseStr fuel r2)
    else if e = 'f' then consStr '\x0c' (parseStr fuel r2)
    else if e = 'n' then consStr '\n' (parseStr fuel r2)
    else if e = 'r' then consStr '\r' (parseStr fuel r2)
    else if e = 't' then consStr '\t' (parseStr fuel r2)
    else if e = 'u' then parseUEsc fuel r2
    else none

/-- `\\uXXXX` decoding: four hex digits, dispatching a high surrogate to
`parseLowSur`.  A lone surrogate (which Python would keep as a surrogate code
point, unrepresentable in `Char`, and which `dumps` never emits) fails. -/
def parseUEsc : Nat → List Char → Option (List Char × List Char)
  | 0, _ => none
  | fuel + 1, a :: b :: c3 :: d :: r3 =>
    match hexVal a, hexVal b, hexVal c3, hexVal d with
    | some ha, some hb, some hc, some hd =>
      let n := ((ha * 16 + hb) * 16 + hc) * 16 + hd
      if 0xD800 ≤ n ∧ n ≤ 0xDBFF then parseLowSur fuel n r3
      else if 0xDC00 ≤ n ∧ n ≤ 0xDFFF then none
      else consStr (Char.ofNat n) (parseStr fuel r3)
    | _, _, _, _ => none
  | _ + 1, _ => none

/-- The low-surrogate continuation `\\uXXXX` after a high surrogate `n`,
recombining to the astral code point. -/
def parseLowSur : Nat → Nat → List Char → Option (List Char × List Char)
  | 0, _, _ => none
  | fuel + 1, n, b1 :: u1 :: a2 :: b2 :: c2 :: d2 :: r5 =>
    if b1 = bslash ∧ u1 = 'u' then
      match hexVal a2, hexVal b2, hexVal c2, hexVal d2 with
      | some xa, some xb, some xc, some xd =>
        let n2 := ((xa * 16 + xb) * 16 + xc) * 16 + xd
        if 0xDC00 ≤ n2 ∧ n2 ≤ 0xDFFF then
          consStr (Char.ofNat (0x10000 + (n - 0xD800) * 0x400 + (n2 - 0xDC00)))
            (parseStr fuel r5)
        else none
      | _, _, _, _ => none
    else none
  | _ + 1, _, _ => none

end

/-- Value of a digit string. -/
def digitsVal (ds : List Char) : Nat := ds.foldl (fun a c => a * 10 + (c.toNat - 48)) 0

/-- Integer scanning: a maximal non-empty digit run (the model's documents hold
no floats, so no fraction/exponent part arises). -/
def parseNat (s : List Char) : Option (Nat × List Char) :=
  let ds := s.takeWhile Char.isDigit
  if ds.isEmpty then none
  else some (digitsVal ds, s.drop ds.length)

mutual

/-- `json.loads` value scanning with explicit fuel (each mutual call consumes
one unit; any fuel at least `needVal` of the value suffices). -/
def parseVal : Nat → List Char → Option (Json × List Char)
  | 0, _ => none
  | fuel + 1, s =>
    match skipWs s with
    | [] => none
    | c :: rest =>
      if c = obrace then parseObjBody fuel rest
      else if c = '[' then parseArrBody fuel rest
      else if c = dquote then
        match parseStr fuel rest with
        | some (str, r) => some (.str str, r)
        | none => none
      else if c = 't' then
        if (chars "rue").isPrefixOf rest then some (.bool true, rest.drop 3) else none
      else if c = 'f' then
        if (chars "alse").isPrefixOf rest then some (.bool false, rest.drop 4) else none
      else if c = 'n' then
        if (chars "ull").isPrefixOf rest then some (.null, rest.drop 3) else none
      else if c = '-' then
        match parseNat rest with
        | some (n, r) => some (.num (-(n : Int)), r)
        | none => none
      else if c.isDigit then
        match parseNat (c :: rest) with
        | some (n, r) => some (.num (n : Int), r)
        | none => none
      else none

/-- Array scanning right after the opening bracket. -/
def parseArrBody : Nat → List Char → Option (Json × List Char)
  | 0, _ => none
  | fuel + 1, s =>
    match skipWs s with
    | [] => none
    | c :: rest =>
      if c = ']' then some (.arr [], rest)
      else
        match parseVal fuel (c :: rest) with
        | some (v, r) =>
          match parseArrRest fuel r with
          | some (vs, r2) => some (.arr (v :: vs), r2)
          | none => none
        | none => none

/-- Array scanning after a parsed item: a closing bracket or a comma and a value. -/
def parseArrRest : Nat → List Char → Option (List Json × List Char)
  | 0, _ => none
  | fuel + 1, s =>
    match skipWs s with
    | [] => none
    | c :: rest =>
      if c = ']' then some ([], rest)
      else if c = ',' then
        match parseVal fuel rest with
        | some (v, r) =>
          match parseArrRest fuel r with
          | some (vs, r2) => some (v :: vs, r2)
          | none => none
        | none => none
      else none

/-- Object scanning right after the opening brace. -/
def parseObjBody : Nat → List Char → Option (Json × List Char)
  | 0, _ => none
  | fuel + 1, s =>
    match skipWs s with
    | [] => none
    | c :: rest =>
      if c = cbrace then some (.obj [], rest)
      else if c = dquote then
        match parseStr fuel rest with
        | some (k, r) =>
          match skipWs r with
          | ':' :: r2 =>
            match parseVal fuel r2 with
            | some (v, r3) =>
              match parseObjRest fuel r3 with
              | some (kvs, r4) => some (.obj ((k, v) :: kvs), r4)
              | none => none
            | none => none
          | _ => none
        | none => none
      else none

/-- Object scanning after a parsed pair: a closing brace or a comma and a pair. -/
def parseObjRest : Nat → List Char → Option (List (List Char × Json) × List Char)
  | 0, _ => none
  | fuel + 1, s =>
    match skipWs s with
    | [] => none
    | c :: rest =>
      if c = cbrace then some ([], rest)
      else if c = ',' then
        match skipWs rest with
        | c2 :: r2 =>
          if c2 = dquote then
            match parseStr fuel r2 with
            | some (k, r3) =>
              match skipWs r3 with
              | ':' :: r4 =>
                match parseVal fuel r4 with
                | some (v, r5) =>
                  match parseObjRest fuel r5 with
                  | some (kvs, r6) => some ((k, v) :: kvs, r6)
                  | none => none
                | none => none
              | _ => none
            | none => none
          else none
        | [] => none
      else none

end

/-- `json.loads`: scan one value and require only whitespace after it.  The
fuel bound is an artifact of the embedding (Python bounds recursion only by
stack depth); `4 * length + 4` exceeds `needVal` of any value the input
serializes. -/
def loads (s : List Char) : Option Json :=
  match parseVal (4 * s.length + 4) s with
  | some (v, r) => if (skipWs r).isEmpty then some v else none
  | none => none

mutual

/-- Fuel sufficient for `parseVal` on the serialized form of a value. -/
def needVal : Json → Nat
  | .null => 1
  | .bool _ => 1
  | .num _ => 1
  | .str s => 2 + 4 * s.length
  | .arr xs => 2 + needItems xs
  | .obj kvs => 2 + needPairs kvs

/-- Fuel sufficient for `parseArrRest` on serialized trailing items. -/
def needItems : List Json → Nat
  | [] => 1
  | x :: xs => 1 + needVal x + needItems xs

/-- Fuel sufficient for `parseObjRest` on serialized trailing pairs. -/
def needPairs : List (List Char × Json) → Nat
  | [] => 1
  | kv :: kvs => 2 + 4 * kv.1.length + needVal kv.2 + needPairs kvs

end

end PyJson

namespace Report

/-- Loop body of `ReportGenerator._wrap_line`: emit `width`-character slices of
`line` until it is exhausted.  The Python loop advances `start` by `width` each
iteration; the fuel argument (instantiated with `line.length`, which bounds the
iteration count whenever `width > 0`) makes the recursion structural. -/
def wrapGo (width : Nat) : Nat → List Char → List (List Char)
  | 0, _ => []
  | _, [] => []
  | fuel + 1, l => l.take width :: wrapGo width fuel (l.drop width)

/-- `ReportGenerator._wrap_line(line, width)`: a single chunk when the line
already fits, otherwise consecutive `width`-character slices. -/
def wrapLine (line : List Char) (width : Nat) : List (List Char) :=
  if line.length ≤ width then [line] else wrapGo width line.length line

open PyJson

/-- The final component of a path string: everything after the last slash
(`pathlib.PurePath.name` for an already normalized POSIX path). -/
def pathName (p : List Char) : List Char :=
  (p.reverse.takeWhile (fun c => c ≠ '/')).reverse

/-- The final component with its `pathlib` suffix removed: CPython strips from
the last dot of the name when that dot is neither the first nor the last
character, and keeps the name whole otherwise. -/
def stripSuffix (name : List Char) : List Char :=
  match name.reverse.findIdx? (fun c => c == '.') with
  | some j =>
    let i := name.length - 1 - j
    if 0 < i ∧ i < name.length - 1 then name.take i else name
  | none => name

/-- `base_path.with_suffix(ext)` of `pathlib`: replace the suffix of the final
component (append when it has none).  The model takes the base path as a
normalized path string whose final component is nonempty and is not a sole
dot; on such degenerate paths CPython instead raises, which the claim theorems
exclude by hypothesis. -/
def withSuffix (p ext : List Char) : List Char :=
  p.take (p.length - (pathName p).length) ++ (stripSuffix (pathName p) ++ ext)

/-- Python truthiness of a JSON-safe value (`if parser:`, `if summary:`, ...). -/
def truthy : Json → Bool
  | .null => false
  | .bool b => b
  | .num n => n != 0
  | .str s => !s.isEmpty
  | .arr xs => !xs.isEmpty
  | .obj kvs => !kvs.isEmpty

/-- Dict lookup with a default (`d.get(k, default)` on a value known to be a
dict): the first entry of the association list, which `dictInsert` keeps
unique per key. -/
def jLookupD (kvs : List (List Char × Json)) (k : List Char) (d : Json) : Json :=
  match kvs.find? (fun kv => kv.1 == k) with
  | some kv => kv.2
  | none => d

/-- `v.get(k, default)` on an arbitrary value: an `AttributeError` unless the
value is a dict. -/
def jGetE (j : Json) (k : List Char) (d : Json) : Except Unit Json :=
  match j with
  | .obj kvs => .ok (jLookupD kvs k d)
  | _ => .error ()

/-- A string-typed attribute access such as `summary.strip()`: an
`AttributeError` unless the value is a string. -/
def asStrE : Json → Except Unit (List Char)
  | .str s => .ok s
  | _ => .error ()

/-- `for x in v`: elements of a list, characters of a string, keys of a dict,
and a `TypeError` on the non-iterable scalars. -/
def pyIterE : Json → Except Unit (List Json)
  | .arr xs => .ok xs
  | .str s => .ok (s.map (fun c => .str [c]))
  | .obj kvs => .ok (kvs.map (fun kv => .str kv.1))
  | _ => .error ()

/-- Python `"\n".join`. -/
def joinNl : List (List Char) → List Char
  | [] => []
  | [x] => x
  | x :: xs => x ++ '\n' :: joinNl xs

/-- Python `", ".join`. -/
def commaJoin : List (List Char) → List Char
  | [] => []
  | [x] => x
  | x :: xs => x ++ (chars ", " ++ commaJoin xs)

/-- Loop of `str.title()`: a letter starts a word (uppercased) when the
previous character is not a letter, and is lowercased otherwise. -/
def titleGo : Bool → List Char → List Char
  | _, [] => []
  | prevAlpha, c :: cs =>
    (if c.isAlpha then (if prevAlpha then c.toLower else c.toUpper) else c)
      :: titleGo c.isAlpha cs

/-- Python `str.title()` (ASCII letters). -/
def pyTitle (s : List Char) : List Char := titleGo false s

/-- Python `section.replace("_", " ")`. -/
def underscoreSpace (s : List Char) : List Char :=
  s.map (fun c => if c = '_' then ' ' else c)

/-- The parser section of the Markdown branch: the parts appended after the
fixed `## Parser Results` heading.  `pyStr` stands for Python `str()` applied
by the f-strings; the attribute accesses of the source are modelled exactly,
so the computation fails exactly where Python raises. -/
def mdParserSection (pyStr : Json → List Char) (parser : Json) :
    Except Unit (List (List Char)) :=
  if truthy parser then do
    let fc ← jGetE parser (chars "file_count") (.num 0)
    let fn ← jGetE parser (chars "function_count") (.num 0)
    let cn ← jGetE parser (chars "call_graph_nodes") (.num 0)
    let ce ← jGetE parser (chars "call_graph_edges") (.num 0)
    let head := chars "- **Files analyzed:** " ++ pyStr fc ++ '\n' ::
      (chars "- **Functions detected:** " ++ pyStr fn ++ '\n' ::
        (chars "- **Call-graph nodes:** " ++ pyStr cn ++ '\n' ::
          (chars "- **Call-graph edges:** " ++ pyStr ce ++ ['\n'])))
    let summary ← jGetE parser (chars "gemini_summary") (.str [])
    if truthy summary then do
      let s ← asStrE summary
      pure ([head, chars "- **Gemini summary:**\n"] ++
        (splitlines (pyStrip s)).map (fun l => chars "  > " ++ l))
    else
      pure [head]
  else
    pure [chars "No parser results available.\n"]

/-- One line of the performance section (`issue.get` twice; the default of the
`detail` lookup is the issue itself). -/
def mdIssueLine (pyStr : Json → List Char) (issue : Json) :
    Except Unit (List Char) := do
  let f ← jGetE issue (chars "file") (.str [])
  let d ← jGetE issue (chars "detail") issue
  pure (chars "- " ++ pyStr f ++ (chars ": " ++ pyStr d))

/-- The performance section of the Markdown branch (after its fixed heading). -/
def mdPerfSection (pyStr : Json → List Char) (perf : Json) :
    Except Unit (List (List Char)) :=
  if truthy perf then do
    let cnt ← jGetE perf (chars "count") (.num 0)
    if truthy cnt then do
      let issues ← jGetE perf (chars "issues") (.arr [])
      let elems ← pyIterE issues
      elems.mapM (mdIssueLine pyStr)
    else
      pure [chars "No significant performance issues detected.\n"]
  else
    pure [chars "No significant performance issues detected.\n"]

/-- One line of the security section (three `finding.get` calls and an en-dash
separator). -/
def mdSecLine (pyStr : Json → List Char) (finding : Json) :
    Except Unit (List Char) := do
  let f ← jGetE finding (chars "file") (.str [])
  let i ← jGetE finding (chars "issue") (.str [])
  let d ← jGetE finding (chars "detail") (.str [])
  pure (chars "- " ++ pyStr f ++ (chars ": " ++ pyStr i ++ (chars " – " ++ pyStr d)))

/-- The security section of the Markdown branch (after its fixed heading). -/
def mdSecSection (pyStr : Json → List Char) (sec : Json) :
    Except Unit (List (List Char)) :=
  if truthy sec then do
    let cnt ← jGetE sec (chars "count") (.num 0)
    if truthy cnt then do
      let issues ← jGetE sec (chars "issues") (.arr [])
      let elems ← pyIterE issues
      elems.mapM (mdSecLine pyStr)
    else
      pure [chars "No critical security findings detected.\n"]
  else
    pure [chars "No critical security findings detected.\n"]

/-- The Markdown branch of `generate`: the text written to the `.md` artifact,
or the exception Python raises while building it (the branch is outside every
`try`, so the exception escapes `generate`). -/
def mdRender (pyStr : Json → List Char) (results : List (List Char × Json)) :
    Except Unit (List Char) := do
  let pParts ← mdParserSection pyStr (jLookupD results (chars "parser_results") (.obj []))
  let perfParts ← mdPerfSection pyStr
    (jLookupD results (chars "performance_issues") (.obj []))
  let secParts ← mdSecSection pyStr
    (jLookupD results (chars "security_findings") (.obj []))
  pure (joinNl ([chars "# Codebase Analysis Report\n", chars "## Parser Results"]
    ++ pParts ++ (chars "\n## Performance Issues" :: perfParts)
    ++ (chars "\n## Security Findings" :: secParts)))

/-- `ReportGenerator._render_markdown_like`: a heading, then per section a
title line, the JSON dump of the section data, and an empty part, joined with
newlines. -/
def markdownLike (results : List (List Char × Json)) : List Char :=
  joinNl (chars "# Codebase Analysis Report\n" ::
    results.flatMap (fun kv =>
      [chars "## " ++ pyTitle (underscoreSpace kv.1), dumpsVal 0 kv.2, []]))

/-- The chunk sequence fed to `pdf.multi_cell` by the PDF branch: each line of
the markdown-like text, soft-wrapped at 80 characters. -/
def pdfChunks (results : List (List Char × Json)) : List (List Char) :=
  (splitlines (markdownLike results)).flatMap (fun l => wrapLine l 80)

/-- The per-section content of the DOCX branch: a title heading and the JSON
dump paragraph for each result section, in order. -/
def docxSections (results : List (List Char × Json)) :
    List (List Char × List Char) :=
  results.map (fun kv => (pyTitle (underscoreSpace kv.1), dumpsVal 0 kv.2))

/-- `ReportGenerator.SUPPORTED_FORMATS`, as a list in declaration order (the
source holds a Python set; only membership and joined listings are used). -/
def SUPPORTED_FORMATS : List (List Char) :=
  [chars "json", chars "html", chars "md", chars "pdf", chars "docx"]

/-- The message of the `ValueError` raised on unsupported formats.  Python
joins two sets whose iteration order is unspecified; the model lists the
unsupported identifiers in first-occurrence order and the supported vocabulary
in declaration order. -/
def valueErrorMsg (unsupported : List (List Char)) : List Char :=
  chars "Unsupported report format(s): " ++ commaJoin unsupported ++
    (chars ". Supported formats are: " ++ commaJoin SUPPORTED_FORMATS)

/-- The exception escaping `generate`: the validation `ValueError`, or the
uncaught error of the Markdown branch (an `AttributeError` or `TypeError`
from the attribute accesses and iterations modelled by `mdRender`). -/
inductive GenError where
  | valueError (msg : List Char)
  | mdError

/-- Content of one written artifact: plain text for the JSON, HTML and
Markdown files, the `multi_cell` chunk sequence for the PDF, and the main
heading plus per-section headings and paragraphs for the DOCX document. -/
inductive FileData where
  | text (content : List Char)
  | pdfDoc (chunks : List (List Char))
  | docxDoc (mainHeading : List Char) (sections : List (List Char × List Char))

/-- Outcome of one `generate` call: the writes performed in order, the html
text if the unconditional rendering line ran, and the returned path list or
the exception raised. -/
structure GenOutcome where
  files : List (List Char × FileData)
  htmlRendered : Option (List Char)
  result : Except GenError (List (List Char))

/-- `if not formats: formats = ["json", "html"]`. -/
def effectiveFormats : Option (List (List Char)) → List (List Char)
  | none => [chars "json", chars "html"]
  | some [] => [chars "json", chars "html"]
  | some fs => fs

/-- The PDF and DOCX branches: each sits in a `try` whose failure (for example
a missing optional backend) skips the format; the availability flags model
which backends succeed. -/
def lateFiles (pdfOk docxOk : Bool) (basePath : List Char)
    (results : List (List Char × Json)) (fs : List (List Char)) :
    List (List Char × FileData) :=
  (if fs.contains (chars "pdf") && pdfOk then
    [(withSuffix basePath (chars ".pdf"), FileData.pdfDoc (pdfChunks results))]
  else []) ++
  (if fs.contains (chars "docx") && docxOk then
    [(withSuffix basePath (chars ".docx"),
      FileData.docxDoc (chars "Codebase Analysis Report") (docxSections results))]
  else [])

/-- The JSON branch: write the indented dump when `json` is requested. -/
def jsonFilesOf (basePath : List Char) (results : List (List Char × Json))
    (fs : List (List Char)) : List (List Char × FileData) :=
  if fs.contains (chars "json") then
    [(withSuffix basePath (chars ".json"), FileData.text (dumps results))]
  else []

/-- The HTML branch: the content is rendered before the branch either way;
the write happens only when `html` is requested. -/
def htmlFilesOf (renderHtml : List (List Char × Json) → List Char)
    (basePath : List Char) (results : List (List Char × Json))
    (fs : List (List Char)) : List (List Char × FileData) :=
  if fs.contains (chars "html") then
    [(withSuffix basePath (chars ".html"), FileData.text (renderHtml results))]
  else []

/-- `ReportGenerator.generate`.  `renderHtml` stands for the jinja2 template
rendering (its template file is not part of the repository) and `pyStr` for
Python `str()` inside f-strings; both are parameters the theorems quantify
over.  Defaulting, validation, and the json, html, md, pdf and docx branches
follow the source in order; the returned path list is the paths of the files
written, each appended right after its write. -/
def generate (renderHtml : List (List Char × Json) → List Char)
    (pyStr : Json → List Char) (pdfOk docxOk : Bool) (basePath : List Char)
    (results : List (List Char × Json)) (formats : Option (List (List Char))) :
    GenOutcome :=
  let fs := effectiveFormats formats
  let unsupported := (fs.filter (fun f => !SUPPORTED_FORMATS.contains f)).dedup
  if unsupported.isEmpty then
    let jsonFiles := jsonFilesOf basePath results fs
    let htmlContent := renderHtml results
    let htmlFiles := htmlFilesOf renderHtml basePath results fs
    if fs.contains (chars "md") then
      match mdRender pyStr results with
      | .error _ =>
        ⟨jsonFiles ++ htmlFiles, some htmlContent, .error GenError.mdError⟩
      | .ok c =>
        let files := jsonFiles ++ htmlFiles ++
          ((withSuffix basePath (chars ".md"), FileData.text c) ::
            lateFiles pdfOk docxOk basePath results fs)
        ⟨files, some htmlContent, .ok (files.map Prod.fst)⟩
    else
      let files := jsonFiles ++ htmlFiles ++ lateFiles pdfOk docxOk basePath results fs
      ⟨files, some htmlContent, .ok (files.map Prod.fst)⟩
  else
    ⟨[], none, .error (GenError.valueError (valueErrorMsg unsupported))⟩

end Report

namespace Perf

/-- One entry of the `issues` list built by `PerformanceAgent.run`. -/
structure PerfIssue where
  file : List Char
  issue : List Char
  detail : List Char
  deriving DecidableEq

/-- Per-file body of the loop in `PerformanceAgent.run`.  The nested-loop count
(computed in the source by an `ast` visitor inside a `try` block) is supplied by
the caller: `none` models a file whose `ast.parse` raised, in which case the
source's `continue` skips only the nested-loop issue. -/
def perfFileIssues (fileName text : List Char) (nestedLoops : Option Nat) : List PerfIssue :=
  let lineCount := (splitlines text).length
  (if 1000 < lineCount then
    [{ file := fileName, issue := chars "Large file",
       detail := natDigits lineCount ++ chars " lines (>1000)" }]
   else [])
  ++ (match nestedLoops with
      | some n =>
        if 0 < n then
          [{ file := fileName, issue := chars "Nested loops",
             detail := natDigits n ++ chars " nested loops detected" }]
        else []
      | none => [])

/-- Result mapping returned by `PerformanceAgent.run`. -/
structure PerfResult where
  count : Nat
  issues : List PerfIssue

/-- `PerformanceAgent.run`: fold the per-file issue lists over the repository's
Python files (given as (path, text) pairs) and report them with their count. -/
def perfRun (files : List (List Char × List Char))
    (nestedLoops : List Char → Option Nat) : PerfResult :=
  let issues := (files.map (fun ft => perfFileIssues ft.1 ft.2 (nestedLoops ft.2))).flatten
  { count := issues.length, issues := issues }

/-- Number of non-blank lines of a file text (a line is blank when it consists
of whitespace only). -/
def nonBlankLines (text : List Char) : Nat :=
  (splitlines text).countP (fun l => !l.all isPyWs)

/-- The Bool predicate picking out "Large file" findings for a given file. -/
def isLargeFor (fileName : List Char) (i : PerfIssue) : Bool :=
  decide (i.issue = chars "Large file") && decide (i.file = fileName)

end Perf

namespace Security

/-- Tokens of the fragment of Python regex syntax used by the security agent's
pattern tables: literal characters, the whitespace repetitions `\s*` and `\s+`,
a character class matched once, and a negated character class matched one or
more times.  Matching is greedy; for the table's patterns every repetition is
followed by a token the repeated class cannot match, so greedy maximal-munch
matching agrees with Python's backtracking semantics. -/
inductive RTok where
  | lit (c : Char)
  | wsStar
  | wsPlus
  | clsOnce (cs : List Char)
  | nclsPlus (cs : List Char)

/-- Character comparison, optionally case-insensitive (the `re.IGNORECASE` flag). -/
def charEq (ci : Bool) (p x : Char) : Bool :=
  if ci then p.toLower = x.toLower else p = x

/-- Class membership for a character class, honouring case-insensitivity. -/
def clsMem (ci : Bool) (cs : List Char) (x : Char) : Bool :=
  cs.any (fun c => charEq ci c x)

/-- Match a token list at the start of the input, returning the unconsumed rest. -/
def munch (ci : Bool) : List RTok → List Char → Option (List Char)
  | [], s => some s
  | .lit p :: ts, s =>
    match s with
    | [] => none
    | x :: xs => if charEq ci p x then munch ci ts xs else none
  | .wsStar :: ts, s => munch ci ts (s.dropWhile isPyWs)
  | .wsPlus :: ts, s =>
    if (s.takeWhile isPyWs).isEmpty then none
    else munch ci ts (s.dropWhile isPyWs)
  | .clsOnce cs :: ts, s =>
    match s with
    | [] => none
    | x :: xs => if clsMem ci cs x then munch ci ts xs else none
  | .nclsPlus cs :: ts, s =>
    let pre := s.takeWhile (fun x => !clsMem ci cs x)
    if pre.isEmpty then none else munch ci ts (s.drop pre.length)

/-- `re.search`: does the token pattern match at some position of the text? -/
def regexSearch (ci : Bool) (toks : List RTok) : List Char → Bool
  | [] => (munch ci toks []).isSome
  | s@(_ :: rest) => (munch ci toks s).isSome || regexSearch ci toks rest

/-- `re.finditer`: all non-overlapping matches, scanning left to right, as
(start index, matched text) pairs.  The fuel argument (instantiated with the
text length, which bounds the number of scan steps) makes the recursion
structural. -/
def finditerGo (ci : Bool) (toks : List RTok) : Nat → Nat → List Char → List (Nat × List Char)
  | 0, _, _ => []
  | _, _, [] => []
  | fuel + 1, pos, s@(_ :: rest) =>
    match munch ci toks s with
    | some r =>
      let len := s.length - r.length
      if len = 0 then (pos, []) :: finditerGo ci toks fuel (pos + 1) rest
      else (pos, s.take len) :: finditerGo ci toks fuel (pos + len) (s.drop len)
    | none => finditerGo ci toks fuel (pos + 1) rest

/-- All matches of a token pattern in a text. -/
def finditer (ci : Bool) (toks : List RTok) (s : List Char) : List (Nat × List Char) :=
  finditerGo ci toks s.length 0 s

/-- The `INSECURE_IMPORTS` table: insecure import name, risk description, in
source (dict-literal) order. -/
def INSECURE_IMPORTS : List (List Char × List Char) :=
  [(chars "pickle", chars "Deserialization vulnerability risk - use json or safer alternatives"),
   (chars "subprocess", chars "Command injection risk if unsanitized inputs - validate all inputs"),
   (chars "os.system", chars "Command injection vulnerability - use subprocess with shell=False"),
   (chars "eval", chars "Code injection vulnerability - never use with untrusted input"),
   (chars "exec", chars "Code execution vulnerability - avoid or sanitize carefully"),
   (chars "input", chars "Potential injection if used with eval/exec - validate input"),
   (chars "urllib.request.urlopen", chars "SSRF and certificate validation issues - use requests library"),
   (chars "ssl._create_unverified_context", chars "Disables SSL verification - major security risk"),
   (chars "yaml.load", chars "Code execution vulnerability - use yaml.safe_load instead"),
   (chars "shelve", chars "Pickle-based storage - deserialization risks")]

/-- Literal-run tokens for a plain string. -/
def litToks (s : List Char) : List RTok := s.map RTok.lit

/-- The regex source text `\s*`. -/
def wsStarSrc : List Char := [bslash, 's', '*']

/-- The regex source text `\s+`. -/
def wsPlusSrc : List Char := [bslash, 's', '+']

/-- The regex source text of a quote character class (open bracket, single
quote, escaped double quote, close bracket as written in the Python literal). -/
def quoteClsSrc : List Char := ['[', squote, dquote, ']']

/-- The regex source text of the negated quote class with `+`. -/
def notQuoteClsSrc : List Char := ['[', '^', squote, dquote, ']', '+']

/-- One entry of the `SECURITY_PATTERNS` table: the regex source text exactly
as written in the Python source, its token compilation, and the description. -/
structure SecPattern where
  src : List Char
  toks : List RTok
  desc : List Char

/-- Token form of the hardcoded-credential patterns `NAME\s*=\s*['\"][^'\"]+['\"]`. -/
def hardcodedToks (name : List Char) : List RTok :=
  litToks name ++ [.wsStar, .lit '=', .wsStar,
    .clsOnce [squote, dquote], .nclsPlus [squote, dquote], .clsOnce [squote, dquote]]

/-- Regex source text of the hardcoded-credential patterns. -/
def hardcodedSrc (name : List Char) : List Char :=
  name ++ wsStarSrc ++ ['='] ++ wsStarSrc ++ quoteClsSrc ++ notQuoteClsSrc ++ quoteClsSrc

/-- The `SECURITY_PATTERNS` table in source order. -/
def SECURITY_PATTERNS : List SecPattern :=
  [⟨hardcodedSrc (chars "password"), hardcodedToks (chars "password"),
    chars "Hardcoded password detected"⟩,
   ⟨hardcodedSrc (chars "api_key"), hardcodedToks (chars "api_key"),
    chars "Hardcoded API key detected"⟩,
   ⟨hardcodedSrc (chars "secret"), hardcodedToks (chars "secret"),
    chars "Hardcoded secret detected"⟩,
   ⟨hardcodedSrc (chars "token"), hardcodedToks (chars "token"),
    chars "Hardcoded token detected"⟩,
   ⟨chars "shell" ++ wsStarSrc ++ ['='] ++ wsStarSrc ++ chars "True",
    litToks (chars "shell") ++ [.wsStar, .lit '=', .wsStar] ++ litToks (chars "True"),
    chars "Shell injection risk - subprocess with shell=True"⟩,
   ⟨chars "random" ++ [bslash, '.'] ++ chars "random" ++ [bslash, '(', bslash, ')'],
    litToks (chars "random.random()"),
    chars "Weak random number generation - use secrets module"⟩,
   ⟨chars "md5" ++ [bslash, '('], litToks (chars "md5("),
    chars "Weak hash algorithm MD5 - use SHA-256 or better"⟩,
   ⟨chars "sha1" ++ [bslash, '('], litToks (chars "sha1("),
    chars "Weak hash algorithm SHA-1 - use SHA-256 or better"⟩,
   ⟨chars "assert" ++ wsPlusSrc, litToks (chars "assert") ++ [.wsPlus],
    chars "Assertion statements can be disabled - don" ++ [squote] ++ chars "t use for security"⟩,
   ⟨chars "DEBUG" ++ wsStarSrc ++ ['='] ++ wsStarSrc ++ chars "True",
    litToks (chars "DEBUG") ++ [.wsStar, .lit '=', .wsStar] ++ litToks (chars "True"),
    chars "Debug mode enabled - disable in production"⟩]

/-- `_get_severity_for_import`'s critical set. -/
def criticalImportNames : List (List Char) :=
  [chars "eval", chars "exec", chars "os.system"]

/-- `_get_severity_for_import`'s high set. -/
def highImportNames : List (List Char) :=
  [chars "pickle", chars "yaml.load", chars "ssl._create_unverified_context"]

/-- `SecurityAgent._get_severity_for_import`. -/
def getSeverityForImport (name : List Char) : String :=
  if name ∈ criticalImportNames then "CRITICAL"
  else if name ∈ highImportNames then "HIGH"
  else "MEDIUM"

/-- Token compilation of `_get_severity_for_pattern`'s `critical_patterns`
(regexes `shell\s*=\s*True` and `DEBUG\s*=\s*True`, searched in the pattern
source text). -/
def criticalPatternToks : List (List RTok) :=
  [litToks (chars "shell") ++ [.wsStar, .lit '=', .wsStar] ++ litToks (chars "True"),
   litToks (chars "DEBUG") ++ [.wsStar, .lit '=', .wsStar] ++ litToks (chars "True")]

/-- Token compilation of `_get_severity_for_pattern`'s `high_patterns`
(regexes `password\s*=\s*`, `api_key\s*=\s*`, `secret\s*=\s*`, `token\s*=\s*`). -/
def highPatternToks : List (List RTok) :=
  [litToks (chars "password") ++ [.wsStar, .lit '=', .wsStar],
   litToks (chars "api_key") ++ [.wsStar, .lit '=', .wsStar],
   litToks (chars "secret") ++ [.wsStar, .lit '=', .wsStar],
   litToks (chars "token") ++ [.wsStar, .lit '=', .wsStar]]

/-- `SecurityAgent._get_severity_for_pattern`: the critical/high regexes are
searched against the pattern's own source text. -/
def getSeverityForPattern (src : List Char) : String :=
  if criticalPatternToks.any (fun cp => regexSearch false cp src) then "CRITICAL"
  else if highPatternToks.any (fun hp => regexSearch false hp src) then "HIGH"
  else "MEDIUM"

/-- Extra, kind-specific payload of a security finding. -/
inductive FindingExtra where
  | imported (cveMatches : List (List Char))
  | patterned (lineNumber : Nat) (matchedText : List Char)
  | risky (dependency : List Char)

/-- One entry of the `issues` list built by `SecurityAgent`. -/
structure SecFinding where
  file : List Char
  issue : List Char
  detail : List Char
  severity : String
  extra : FindingExtra

/-- The issue text built for an insecure import. -/
def insecureImportIssue (name : List Char) : List Char :=
  chars "Insecure import " ++ [squote] ++ name ++ [squote] ++ chars " detected"

/-- Is the character before the candidate match position a word boundary?
(`none` means start of text). -/
def prevOk : Option Char → Bool
  | none => true
  | some c => !isWordChar c

/-- Is the position after the candidate match a word boundary? -/
def nextOk : List Char → Bool
  | [] => true
  | c :: _ => !isWordChar c

/-- Scan for an occurrence of `w` delimited by word boundaries, tracking the
previous character.  This embeds `re.search(rf"\b{re.escape(name)}\b", text)`
for the import names of the table, all of which begin and end with word
characters, so the boundary condition is exactly "adjacent characters, when
present, are non-word". -/
def wbScan (w : List Char) : Option Char → List Char → Bool
  | _, [] => false
  | prev, s@(c :: rest) =>
    (prevOk prev && w.isPrefixOf s && nextOk (s.drop w.length)) || wbScan w (some c) rest

/-- Word-boundary search for an import name in a file text. -/
def wordBoundSearch (w text : List Char) : Bool := wbScan w none text

/-- Number of newline characters in a prefix (for 1-based line numbers). -/
def countNl (s : List Char) : Nat := s.countP (fun c => decide (c = '\n'))

/-- The insecure-import loop of `SecurityAgent._analyze_file_security`.  The
CVE lookup runs over the network inside a `try` block in the source; its
outcome (already reduced to a list, empty on failure) is supplied by `cve`. -/
def importFindingsFor (cve : List Char → List (List Char)) (fileName text : List Char) :
    List SecFinding :=
  (INSECURE_IMPORTS.map (fun nd =>
    if wordBoundSearch nd.1 text then
      [{ file := fileName, issue := insecureImportIssue nd.1, detail := nd.2,
         severity := getSeverityForImport nd.1, extra := .imported (cve nd.1) }]
    else [])).flatten

/-- The regex-pattern loop of `SecurityAgent._analyze_file_security`
(`re.finditer` with `re.IGNORECASE` over each table pattern). -/
def patternFindingsFor (fileName text : List Char) : List SecFinding :=
  (SECURITY_PATTERNS.map (fun p =>
    (finditer true p.toks text).map (fun im =>
      let ln := countNl (text.take im.1) + 1
      { file := fileName, issue := p.desc,
        detail := chars "Line " ++ natDigits ln ++ chars ": " ++ pyStrip im.2,
        severity := getSeverityForPattern p.src,
        extra := .patterned ln (pyStrip im.2) }))).flatten

/-- `SecurityAgent._analyze_file_security`: import findings then pattern findings. -/
def analyzeFileSecurity (cve : List Char → List (List Char)) (fileName text : List Char) :
    List SecFinding :=
  importFindingsFor cve fileName text ++ patternFindingsFor fileName text

/-- Extract the dependency token of one line for `_extract_dependencies`
(the regex `^\s*(?:from\s+(\S+)|import\s+(\S+))`, applied per line). -/
def depToken (l kw : List Char) : Option (List Char) :=
  if kw.isPrefixOf l then
    match l.drop kw.length with
    | [] => none
    | c :: _ =>
      if isPyWs c then
        let tok := ((l.drop kw.length).dropWhile isPyWs).takeWhile (fun x => !isPyWs x)
        if tok.isEmpty then none else some tok
      else none
  else none

/-- Dependency token of a line: `from X ...` or `import X ...`. -/
def depFromLine (line : List Char) : Option (List Char) :=
  let l := line.dropWhile isPyWs
  match depToken l (chars "from") with
  | some t => some t
  | none => depToken l (chars "import")

/-- Keep the top-level package name (`dep.split(chr 46)[0]`), discarding
relative imports that start with a dot. -/
def topLevelDep (t : List Char) : Option (List Char) :=
  match t with
  | [] => none
  | c :: _ => if c = '.' then none else some (t.takeWhile (fun x => decide (x ≠ '.')))

/-- `SecurityAgent._extract_dependencies` over the repository files (a set in
the source; embedded as a deduplicated list). -/
def extractDependencies (files : List (List Char × List Char)) : List (List Char) :=
  ((files.map (fun ft => (splitlines ft.2).filterMap
      (fun l => (depFromLine l).bind topLevelDep))).flatten).dedup

/-- One entry of the BigQuery `risk_analysis` payload (a collaborator response;
score and vulnerability count are kept as already-formatted text). -/
structure RiskEntry where
  dependency : List Char
  riskLevel : String
  riskScore : List Char
  vulnCount : List Char

/-- Outcome of the BigQuery collaborator calls made by `SecurityAgent.run`.
Only the `risk_analysis` list feeds back into the findings; the trend and
pattern query payloads are pass-through values. -/
structure BqModel where
  riskAnalysis : List RiskEntry

/-- The high-risk dependency findings appended by `SecurityAgent.run`. -/
def riskFindings (bq : BqModel) : List SecFinding :=
  (bq.riskAnalysis.map (fun r =>
    if r.riskLevel = "HIGH" then
      [{ file := chars "dependencies",
         issue := chars "High-risk dependency: " ++ r.dependency,
         detail := chars "Risk score: " ++ r.riskScore ++ chars ", Vulnerabilities: " ++ r.vulnCount,
         severity := "HIGH", extra := .risky r.dependency }]
    else [])).flatten

/-- Per-severity summary counts of `SecurityAgent.run`'s result. -/
structure SecSummary where
  criticalIssues : Nat
  highIssues : Nat
  mediumIssues : Nat
  lowIssues : Nat

/-- Result mapping returned by `SecurityAgent.run`. -/
structure SecResult where
  count : Nat
  issues : List SecFinding
  dependenciesAnalyzed : Nat
  summary : SecSummary

/-- `SecurityAgent.run`: per-file findings in file order, then (when any
dependencies were extracted) the BigQuery high-risk dependency findings. -/
def securityRun (files : List (List Char × List Char))
    (cve : List Char → List (List Char)) (bq : BqModel) : SecResult :=
  let deps := extractDependencies files
  let fileFindings := (files.map (fun ft => analyzeFileSecurity cve ft.1 ft.2)).flatten
  let findings := fileFindings ++ (if deps.isEmpty then [] else riskFindings bq)
  { count := findings.length,
    issues := findings,
    dependenciesAnalyzed := deps.length,
    summary :=
      { criticalIssues := findings.countP (fun f => decide (f.severity = "CRITICAL")),
        highIssues := findings.countP (fun f => decide (f.severity = "HIGH")),
        mediumIssues := findings.countP (fun f => decide (f.severity = "MEDIUM")),
        lowIssues := findings.countP (fun f => decide (f.severity = "LOW")) } }

end Security

namespace Orch

open PyJson

/-- A registered agent as the orchestrator sees it: `register_agent` stores an
instance, `run` reads `agent.name` and calls `agent.run()`; the claim assumes
no unit raises, so a unit is its name and the value its run returns. -/
structure AgentModel where
  name : List Char
  result : Json

/-- Python dict assignment `results[k] = v`: overwrite in place when the key
exists, append otherwise. -/
def dictInsert (kvs : List (List Char × Json)) (k : List Char) (v : Json) :
    List (List Char × Json) :=
  if kvs.any (fun kv => kv.1 == k) then
    kvs.map (fun kv => if kv.1 == k then (kv.1, v) else kv)
  else
    kvs ++ [(k, v)]

/-- The loop of `Orchestrator.run`: `results[agent.name] = agent.run()` over
the registered agents in registration order. -/
def buildResults : List AgentModel → List (List Char × Json) → List (List Char × Json)
  | [], acc => acc
  | a :: rest, acc => buildResults rest (dictInsert acc a.name a.result)

/-- Observable steps of `Orchestrator.run`: a unit running, and the single
renderer invocation with its arguments. -/
inductive OrchEvent where
  | ranAgent (name : List Char)
  | calledGenerator (outputPath : List Char) (results : List (List Char × Json))
      (formats : Option (List (List Char)))

/-- Whether an event is the renderer invocation. -/
def isGenCall : OrchEvent → Bool
  | .calledGenerator _ _ _ => true
  | _ => false

/-- `Orchestrator.run`: execute every agent in order, call the generator once
with the consolidated results, return the results.  The event list records the
execution order. -/
def orchRun (agents : List AgentModel) (outputPath : List Char)
    (formats : Option (List (List Char))) :
    List (List Char × Json) × List OrchEvent :=
  let results := buildResults agents []
  (results,
    agents.map (fun a => OrchEvent.ranAgent a.name) ++
      [OrchEvent.calledGenerator outputPath results formats])

/-- Dict lookup `results[k]` as an option. -/
def jLookup (kvs : List (List Char × Json)) (k : List Char) : Option Json :=
  (kvs.find? (fun kv => kv.1 == k)).map Prod.snd

/-- The value the last registered agent named `k` returns, if any: what the
result document must hold at `k` when later units overwrite earlier ones. -/
def lastAssign (agents : List AgentModel) (k : List Char) : Option Json :=
  (agents.reverse.find? (fun a => a.name == k)).map AgentModel.result

end Orch

namespace Report

theorem wrapGo_flatten (width : Nat) (hw : 0 < width) :
    ∀ (fuel : Nat) (l : List Char), l.length ≤ fuel →
      (wrapGo width fuel l).flatten = l ∧
      ∀ c ∈ wrapGo width fuel l, c.length ≤ width := by
  intro fuel
  induction fuel with
  | zero =>
    intro l hl
    have : l = [] := List.length_eq_zero.mp (Nat.le_zero.mp hl)
    subst this
    simp [wrapGo]
  | succ n ih =>
    intro l hl
    match l with
    | [] => simp [wrapGo]
    | c :: rest =>
      have hlen : ((c :: rest).drop width).length ≤ n := by
        simp only [List.length_drop, List.length_cons]
        simp only [List.length_cons] at hl
        omega
      obtain ⟨h1, h2⟩ := ih ((c :: rest).drop width) hlen
      refine ⟨?_, ?_⟩
      · simp only [wrapGo, List.flatten_cons, h1, List.take_append_drop]
      · intro ck hck
        simp only [wrapGo, List.mem_cons] at hck
        rcases hck with rfl | hck
        · simpa using Nat.min_le_left width _
        · exact h2 ck hck

/-- C10: for every line and every positive width, `_wrap_line` returns a
non-empty list of chunks, each chunk is at most `width` characters long, and
the concatenation of the chunks in order is the original line. -/
theorem wrap_line_spec (line : List Char) (width : Nat) (hw : 0 < width) :
    wrapLine line width ≠ [] ∧
    (∀ c ∈ wrapLine line width, c.length ≤ width) ∧
    (wrapLine line width).flatten = line := by
  unfold wrapLine
  by_cases h : line.length ≤ width
  · simp [h]
  · simp only [h, if_false]
    obtain ⟨h1, h2⟩ := wrapGo_flatten width hw line.length line (Nat.le_refl _)
    refine ⟨?_, h2, h1⟩
    intro hempty
    rw [hempty] at h1
    simp only [List.flatten_nil] at h1
    rw [← h1] at h
    simp at h

/-- Witness for C10 at a concrete line and width. -/
theorem wrap_line_spec_witness :
    wrapLine (chars "abcdefgh") 3 ≠ [] ∧
    (∀ c ∈ wrapLine (chars "abcdefgh") 3, c.length ≤ 3) ∧
    (wrapLine (chars "abcdefgh") 3).flatten = chars "abcdefgh" :=
  wrap_line_spec (chars "abcdefgh") 3 (by decide)

end Report

namespace Perf

theorem perfFileIssues_file_eq (g t : List Char) (nd : Option Nat) :
    ∀ i ∈ perfFileIssues g t nd, i.file = g := by
  intro i hi
  unfold perfFileIssues at hi
  rcases nd with _ | n <;> rcases List.mem_append.mp hi with h | h
  · split at h
    · rw [List.mem_singleton] at h
      subst h
      rfl
    · exact absurd h (List.not_mem_nil i)
  · exact absurd h (List.not_mem_nil i)
  · split at h
    · rw [List.mem_singleton] at h
      subst h
      rfl
    · exact absurd h (List.not_mem_nil i)
  · have h' : i ∈ (if 0 < n then
        [{ file := g, issue := chars "Nested loops",
           detail := natDigits n ++ chars " nested loops detected" : PerfIssue}]
      else ([] : List PerfIssue)) := h
    split at h'
    · rw [List.mem_singleton] at h'
      subst h'
      rfl
    · exact absurd h' (List.not_mem_nil i)

theorem perfFileIssues_large_count (fileName text : List Char) (nd : Option Nat)
    (h : nonBlankLines text = 1001) :
    (perfFileIssues fileName text nd).countP (isLargeFor fileName) = 1 := by
  have hle : nonBlankLines text ≤ (splitlines text).length := List.countP_le_length _
  have hlc : 1000 < (splitlines text).length := by omega
  simp only [perfFileIssues, hlc, if_true, List.countP_append]
  have h1 : (List.countP (isLargeFor fileName)
      [{ file := fileName, issue := chars "Large file",
         detail := natDigits (splitlines text).length ++ chars " lines (>1000)" : PerfIssue}]) = 1 := by
    simp [List.countP_cons, isLargeFor]
  rw [h1]
  have h2 : (List.countP (isLargeFor fileName)
      (match nd with
      | some n =>
        if 0 < n then
          [{ file := fileName, issue := chars "Nested loops",
             detail := natDigits n ++ chars " nested loops detected" : PerfIssue}]
        else []
      | none => [])) = 0 := by
    rcases nd with _ | n
    · rfl
    · show List.countP (isLargeFor fileName)
          (if 0 < n then
            [{ file := fileName, issue := chars "Nested loops",
               detail := natDigits n ++ chars " nested loops detected" : PerfIssue}]
           else []) = 0
      by_cases hn : 0 < n
      · rw [if_pos hn]
        rfl
      · rw [if_neg hn]
        rfl
  omega

theorem countP_large_zero_of_count_zero (fileName : List Char)
    (nested : List Char → Option Nat) (files : List (List Char × List Char))
    (h : (files.map Prod.fst).count fileName = 0) :
    ((files.map (fun ft => perfFileIssues ft.1 ft.2 (nested ft.2))).flatten.countP
      (isLargeFor fileName)) = 0 := by
  induction files with
  | nil => simp
  | cons hd tl ih =>
    simp only [List.map_cons, List.flatten_cons, List.countP_append]
    simp only [List.map_cons, List.count_cons] at h
    have hne : hd.1 ≠ fileName := by
      intro he
      simp [he] at h
    have hz : (perfFileIssues hd.1 hd.2 (nested hd.2)).countP (isLargeFor fileName) = 0 := by
      rw [List.countP_eq_zero]
      intro i hi
      have := perfFileIssues_file_eq hd.1 hd.2 (nested hd.2) i hi
      simp only [isLargeFor, this, Bool.and_eq_true, decide_eq_true_eq]
      intro hc
      exact hne hc.2
    rw [hz, ih (by omega)]

/-- C8: when the repository contains a Python file (appearing once) whose text
has exactly 1001 non-blank lines, `PerformanceAgent.run` reports exactly one
"Large file" finding for that file, and never more than one. -/
theorem perfRun_large_file_exactly_one
    (files : List (List Char × List Char)) (nested : List Char → Option Nat)
    (fileName text : List Char)
    (hmem : (fileName, text) ∈ files)
    (huniq : (files.map Prod.fst).count fileName = 1)
    (hlines : nonBlankLines text = 1001) :
    (perfRun files nested).issues.countP (isLargeFor fileName) = 1 := by
  induction files with
  | nil => cases hmem
  | cons hd tl ih =>
    simp only [perfRun, List.map_cons, List.flatten_cons, List.countP_append]
    simp only [List.map_cons, List.count_cons] at huniq
    rcases List.mem_cons.mp hmem with he | htl
    · have hfst : hd.1 = fileName := by rw [← he]
      have htlz : (tl.map Prod.fst).count fileName = 0 := by
        by_cases hc : hd.1 = fileName
        · simp [hc] at huniq
          omega
        · exact absurd hfst hc
      have hhd : (perfFileIssues hd.1 hd.2 (nested hd.2)).countP (isLargeFor fileName) = 1 := by
        rw [← he]
        exact perfFileIssues_large_count fileName text (nested text) hlines
      rw [hhd, countP_large_zero_of_count_zero fileName nested tl htlz]
    · have hmemf : fileName ∈ tl.map Prod.fst :=
        List.mem_map.mpr ⟨(fileName, text), htl, rfl⟩
      have hpos : 0 < (tl.map Prod.fst).count fileName := List.count_pos_iff.mpr hmemf
      have hne : hd.1 ≠ fileName := by
        intro he
        simp [he] at huniq
        omega
      have hz : (perfFileIssues hd.1 hd.2 (nested hd.2)).countP (isLargeFor fileName) = 0 := by
        rw [List.countP_eq_zero]
        intro i hi
        have := perfFileIssues_file_eq hd.1 hd.2 (nested hd.2) i hi
        simp only [isLargeFor, this, Bool.and_eq_true, decide_eq_true_eq]
        intro hc
        exact hne hc.2
      have htl1 : (tl.map Prod.fst).count fileName = 1 := by
        by_cases hc : hd.1 = fileName
        · exact absurd hc hne
        · simpa [hc] using huniq
      have := ih htl htl1
      simp only [perfRun] at this
      rw [hz, this]

theorem nonBlankLines_replicate (n : Nat) :
    Perf.nonBlankLines ((List.replicate n ['x', '\n']).flatten) = n := by
  induction n with
  | zero => rfl
  | succ k ih =>
    rw [List.replicate_succ, List.flatten_cons]
    show Perf.nonBlankLines ('x' :: '\n' :: (List.replicate k ['x', '\n']).flatten) = k + 1
    unfold nonBlankLines at ih ⊢
    rw [show splitlines ('x' :: '\n' :: (List.replicate k ['x', '\n']).flatten)
        = ['x'] :: splitlines ((List.replicate k ['x', '\n']).flatten) by
      simp [splitlines]]
    rw [List.countP_cons]
    simp only [ih]
    simp [isPyWs, isJsonWs]

/-- Witness for C8: a two-file repository where the second file has 1001
non-blank lines. -/
theorem perfRun_large_file_exactly_one_witness :
    (perfRun [(chars "a.py", chars "x"),
              (chars "big.py", (List.replicate 1001 ['x', '\n']).flatten)]
      (fun _ => none)).issues.countP (isLargeFor (chars "big.py")) = 1 :=
  perfRun_large_file_exactly_one
    [(chars "a.py", chars "x"),
     (chars "big.py", (List.replicate 1001 ['x', '\n']).flatten)]
    (fun _ => none)
    (chars "big.py") ((List.replicate 1001 ['x', '\n']).flatten)
    (List.mem_cons_of_mem _ (List.mem_cons_self _ _))
    (by decide)
    (nonBlankLines_replicate 1001)

end Perf

namespace Security

theorem isPrefixOf_append_self (w post : List Char) : w.isPrefixOf (w ++ post) = true := by
  induction w with
  | nil => simp [List.isPrefixOf]
  | cons c cs ih => simp [List.isPrefixOf, ih]

theorem wbScan_of_split (w post : List Char) (hw : w ≠ []) (hnext : nextOk post = true) :
    ∀ (pre : List Char) (prev : Option Char),
      (pre = [] → prevOk prev = true) →
      (∀ c, pre.getLast? = some c → isWordChar c = false) →
      wbScan w prev (pre ++ w ++ post) = true := by
  intro pre
  induction pre with
  | nil =>
    intro prev h1 h2
    have hp := h1 rfl
    obtain ⟨c, w', rfl⟩ : ∃ c w', w = c :: w' := by
      cases w with
      | nil => exact absurd rfl hw
      | cons c w' => exact ⟨c, w', rfl⟩
    rw [List.nil_append, List.cons_append]
    simp only [wbScan]
    rw [← List.cons_append, hp, isPrefixOf_append_self, List.drop_left, hnext]
    simp
  | cons c pre' ih =>
    intro prev h1 h2
    rw [List.cons_append, List.cons_append]
    simp only [wbScan]
    have h1' : pre' = [] → prevOk (some c) = true := by
      intro hpe
      subst hpe
      have := h2 c rfl
      simp [prevOk, this]
    have h2' : ∀ d, pre'.getLast? = some d → isWordChar d = false := by
      intro d hd
      apply h2
      cases pre' with
      | nil => cases hd
      | cons e es =>
        rw [List.getLast?_cons_cons]
        exact hd
    rw [ih (some c) h1' h2', Bool.or_true]

/-- C9: every pattern of the `SECURITY_PATTERNS` table is classified MEDIUM by
`_get_severity_for_pattern` (its critical and high regexes never match the
literal pattern source texts), so every finding emitted from a regex-pattern
match carries severity "MEDIUM". -/
theorem pattern_severity_medium :
    (SECURITY_PATTERNS.all (fun p => getSeverityForPattern p.src == "MEDIUM")) = true ∧
    ∀ fileName text,
      (patternFindingsFor fileName text).all (fun f => f.severity == "MEDIUM") = true := by
  refine ⟨by decide, ?_⟩
  intro fileName text
  rw [List.all_eq_true]
  intro f hf
  simp only [patternFindingsFor, List.mem_flatten, List.mem_map] at hf
  obtain ⟨l, ⟨p, hp, rfl⟩, hfl⟩ := hf
  obtain ⟨im, _him, rfl⟩ := List.mem_map.mp hfl
  have hall : (SECURITY_PATTERNS.all (fun q => getSeverityForPattern q.src == "MEDIUM")) = true := by
    decide
  exact List.all_eq_true.mp hall p hp

/-- C7: a repository file whose text contains the token `pickle` inside an
importing statement produces, in `SecurityAgent.run`'s result, at least one
finding for that file whose issue text reports the insecure import of pickle,
with severity "HIGH". -/
theorem pickle_import_high
    (files : List (List Char × List Char)) (cve : List Char → List (List Char)) (bq : BqModel)
    (fileName text pre post : List Char)
    (hmem : (fileName, text) ∈ files)
    (hsplit : text = pre ++ chars "import pickle" ++ post)
    (hpost : nextOk post = true) :
    ∃ f ∈ (securityRun files cve bq).issues,
      f.file = fileName ∧ f.issue = insecureImportIssue (chars "pickle") ∧
      f.severity = "HIGH" := by
  have hsearch : wordBoundSearch (chars "pickle") text = true := by
    have hchars : (chars "import pickle" : List Char)
        = (chars "import" ++ [' ']) ++ chars "pickle" := by decide
    have htext : text = (pre ++ (chars "import" ++ [' '])) ++ chars "pickle" ++ post := by
      rw [hsplit, hchars]
      simp [List.append_assoc]
    have h1 : pre ++ (chars "import" ++ [' ']) = [] → prevOk none = true := by
      intro _
      rfl
    have h2 : ∀ c, (pre ++ (chars "import" ++ [' '])).getLast? = some c →
        isWordChar c = false := by
      intro c hc
      rw [show pre ++ (chars "import" ++ [' ']) = (pre ++ chars "import") ++ [' '] by
            simp [List.append_assoc],
          List.getLast?_concat] at hc
      cases hc
      decide
    rw [wordBoundSearch, htext]
    exact wbScan_of_split (chars "pickle") post (by decide) hpost
      (pre ++ (chars "import" ++ [' '])) none h1 h2
  refine ⟨{ file := fileName, issue := insecureImportIssue (chars "pickle"),
            detail := chars "Deserialization vulnerability risk - use json or safer alternatives",
            severity := getSeverityForImport (chars "pickle"),
            extra := .imported (cve (chars "pickle")) }, ?_, rfl, rfl, rfl⟩
  show _ ∈ (securityRun files cve bq).issues
  refine List.mem_append_left _ ?_
  rw [List.mem_flatten]
  refine ⟨analyzeFileSecurity cve fileName text, List.mem_map.mpr ⟨(fileName, text), hmem, rfl⟩, ?_⟩
  refine List.mem_append_left _ ?_
  rw [importFindingsFor, List.mem_flatten]
  refine ⟨_, List.mem_map.mpr ⟨(chars "pickle",
      chars "Deserialization vulnerability risk - use json or safer alternatives"),
      List.mem_cons_self _ _, rfl⟩, ?_⟩
  rw [if_pos hsearch]
  exact List.mem_singleton.mpr rfl

/-- Witness for C7: a one-file repository whose file is exactly `import pickle`. -/
theorem pickle_import_high_witness :
    ∃ f ∈ (securityRun [(chars "m.py", chars "import pickle")]
        (fun _ => []) ⟨[]⟩).issues,
      f.file = chars "m.py" ∧ f.issue = insecureImportIssue (chars "pickle") ∧
      f.severity = "HIGH" :=
  pickle_import_high [(chars "m.py", chars "import pickle")] (fun _ => []) ⟨[]⟩
    (chars "m.py") (chars "import pickle") [] []
    (List.mem_cons_self _ _) (by simp) rfl

end Security

namespace PyJson

theorem charOfNat_toNat (c : Char) : Char.ofNat c.toNat = c := by
  have hv : c.toNat.isValidChar := c.valid
  rw [Char.ofNat, dif_pos hv]
  apply Char.ext
  simp [Char.ofNatAux, UInt32.ofNat']
  obtain ⟨⟨⟨v, hlt⟩⟩, hval⟩ := c
  rfl

theorem prefix_isPrefixOf_append (w post : List Char) : w.isPrefixOf (w ++ post) = true := by
  induction w with
  | nil => simp [List.isPrefixOf]
  | cons c cs ih => simp [List.isPrefixOf, ih]

theorem nlIndent_all_ws (lvl : Nat) : (nlIndent lvl).all isJsonWs = true := by
  rw [List.all_eq_true]
  intro c hc
  simp only [nlIndent, List.mem_cons, List.mem_replicate] at hc
  rcases hc with rfl | ⟨_, rfl⟩ <;> rfl

theorem skipWs_append_ws (ws s : List Char) (h : ws.all isJsonWs = true) :
    skipWs (ws ++ s) = skipWs s := by
  induction ws with
  | nil => rfl
  | cons c cs ih =>
    simp only [List.all_cons, Bool.and_eq_true] at h
    simp only [List.cons_append, skipWs, List.dropWhile_cons, h.1, if_true]
    exact ih h.2

theorem skipWs_cons_not_ws (c : Char) (cs : List Char) (h : isJsonWs c = false) :
    skipWs (c :: cs) = c :: cs := by
  simp [skipWs, List.dropWhile_cons, h]

theorem hexVal_hexDigitChar : ∀ d : Nat, d < 16 → hexVal (hexDigitChar d) = some d := by
  decide

theorem natDigits_length_pos (n : Nat) : natDigits n ≠ [] := by
  unfold natDigits
  split <;> simp

theorem natDigits_all_digits (n : Nat) : ∀ c ∈ natDigits n, c.isDigit = true := by
  induction n using Nat.strong_induction_on with
  | _ n ih =>
    intro c hc
    unfold natDigits at hc
    split at hc
    · rw [List.mem_singleton] at hc
      subst hc
      rename_i hlt
      interval_cases n <;> decide
    · rw [List.mem_append] at hc
      rcases hc with hc | hc
      · exact ih (n / 10) (Nat.div_lt_self (by omega) (by omega)) c hc
      · rw [List.mem_singleton] at hc
        subst hc
        have : n % 10 < 10 := Nat.mod_lt _ (by omega)
        have hd : ∀ d : Nat, d < 10 → (hexDigitChar d).isDigit = true := by decide
        exact hd _ this

theorem digit_char_val (d : Nat) (h : d < 10) : (hexDigitChar d).toNat - 48 = d := by
  interval_cases d <;> decide

theorem digitsVal_append_digit (l : List Char) (c : Char) :
    digitsVal (l ++ [c]) = digitsVal l * 10 + (c.toNat - 48) := by
  simp [digitsVal, List.foldl_append]

theorem digitsVal_natDigits (n : Nat) : digitsVal (natDigits n) = n := by
  induction n using Nat.strong_induction_on with
  | _ n ih =>
    unfold natDigits
    split
    · rename_i hlt
      show digitsVal [hexDigitChar n] = n
      simp only [digitsVal, List.foldl_cons, List.foldl_nil, Nat.zero_mul, Nat.zero_add]
      exact digit_char_val n hlt
    · rename_i hlt
      rw [digitsVal_append_digit, ih (n / 10) (Nat.div_lt_self (by omega) (by omega)),
        digit_char_val (n % 10) (Nat.mod_lt _ (by omega))]
      omega

theorem takeWhile_all_append (p : Char → Bool) (l r : List Char)
    (hl : ∀ c ∈ l, p c = true)
    (hr : ∀ c cs, r = c :: cs → p c = false) :
    (l ++ r).takeWhile p = l := by
  induction l with
  | nil =>
    cases r with
    | nil => rfl
    | cons c cs =>
      simp [List.nil_append, List.takeWhile_cons, hr c cs rfl]
  | cons c cs ih =>
    simp only [List.cons_append, List.takeWhile_cons, hl c (List.mem_cons_self _ _), if_true]
    rw [ih (fun d hd => hl d (List.mem_cons_of_mem _ hd))]

theorem parseNat_natDigits (m : Nat) (suffix : List Char)
    (hsuf : ∀ c cs, suffix = c :: cs → c.isDigit = false) :
    parseNat (natDigits m ++ suffix) = some (m, suffix) := by
  have htake : (natDigits m ++ suffix).takeWhile Char.isDigit = natDigits m :=
    takeWhile_all_append _ _ _ (natDigits_all_digits m) hsuf
  have hne : (natDigits m).isEmpty = false := by
    cases h : natDigits m with
    | nil => exact absurd h (natDigits_length_pos m)
    | cons a l => rfl
  rw [parseNat]
  simp only [htake, hne, Bool.false_eq_true, if_false, digitsVal_natDigits, List.drop_left]

theorem valid_char_cases (c : Char) :
    c.toNat < 0xd800 ∨ (0xdfff < c.toNat ∧ c.toNat < 0x110000) := c.valid

theorem hex4_decode (n : Nat) (h : n < 0x10000) :
    ((n / 4096 % 16 * 16 + n / 256 % 16) * 16 + n / 16 % 16) * 16 + n % 16 = n := by
  omega

theorem step_lit (c : Char) (f : Nat) (tail : List Char)
    (h1 : ¬c = dquote) (h2 : ¬c = bslash) :
    parseStr (f + 1) (c :: tail) = consStr c (parseStr f tail) := by
  conv_lhs => rw [parseStr.eq_def]
  dsimp only
  rw [if_neg h1, if_neg h2]

theorem step_esc_dq (f : Nat) (tail : List Char) :
    parseStr (f + 1 + 1) (escapeChar dquote ++ tail) = consStr dquote (parseStr f tail) := by
  rw [show escapeChar dquote = [bslash, dquote] from rfl, List.cons_append,
    List.cons_append, List.nil_append]
  conv_lhs => rw [parseStr.eq_def]
  dsimp only
  rw [if_neg (by decide), if_pos rfl]
  conv_lhs => rw [parseEsc.eq_def]
  dsimp only
  rw [if_pos rfl]

theorem step_esc_bs (f : Nat) (tail : List Char) :
    parseStr (f + 1 + 1) (escapeChar bslash ++ tail) = consStr bslash (parseStr f tail) := by
  rw [show escapeChar bslash = [bslash, bslash] from rfl, List.cons_append,
    List.cons_append, List.nil_append]
  conv_lhs => rw [parseStr.eq_def]
  dsimp only
  rw [if_neg (by decide), if_pos rfl]
  conv_lhs => rw [parseEsc.eq_def]
  dsimp only
  rw [if_neg (by decide), if_pos rfl]

theorem step_esc_b (f : Nat) (tail : List Char) :
    parseStr (f + 1 + 1) (escapeChar '\x08' ++ tail) = consStr '\x08' (parseStr f tail) := by
  rw [show escapeChar '\x08' = [bslash, 'b'] from rfl, List.cons_append,
    List.cons_append, List.nil_append]
  conv_lhs => rw [parseStr.eq_def]
  dsimp only
  rw [if_neg (by decide), if_pos rfl]
  conv_lhs => rw [parseEsc.eq_def]
  dsimp only
  rw [if_neg (by decide), if_neg (by decide), if_neg (by decide), if_pos rfl]

theorem step_esc_t (f : Nat) (tail : List Char) :
    parseStr (f + 1 + 1) (escapeChar '\t' ++ tail) = consStr '\t' (parseStr f tail) := by
  rw [show escapeChar '\t' = [bslash, 't'] from rfl, List.cons_append,
    List.cons_append, List.nil_append]
  conv_lhs => rw [parseStr.eq_def]
  dsimp only
  rw [if_neg (by decide), if_pos rfl]
  conv_lhs => rw [parseEsc.eq_def]
  dsimp only
  rw [if_neg (by decide), if_neg (by decide), if_neg (by decide), if_neg (by decide),
    if_neg (by decide), if_neg (by decide), if_neg (by decide), if_pos rfl]

theorem step_esc_n (f : Nat) (tail : List Char) :
    parseStr (f + 1 + 1) (escapeChar '\n' ++ tail) = consStr '\n' (parseStr f tail) := by
  rw [show escapeChar '\n' = [bslash, 'n'] from rfl, List.cons_append,
    List.cons_append, List.nil_append]
  conv_lhs => rw [parseStr.eq_def]
  dsimp only
  rw [if_neg (by decide), if_pos rfl]
  conv_lhs => rw [parseEsc.eq_def]
  dsimp only
  rw [if_neg (by decide), if_neg (by decide), if_neg (by decide), if_neg (by decide),
    if_neg (by decide), if_pos rfl]

theorem step_esc_f (f : Nat) (tail : List Char) :
    parseStr (f + 1 + 1) (escapeChar '\x0c' ++ tail) = consStr '\x0c' (parseStr f tail) := by
  rw [show escapeChar '\x0c' = [bslash, 'f'] from rfl, List.cons_append,
    List.cons_append, List.nil_append]
  conv_lhs => rw [parseStr.eq_def]
  dsimp only
  rw [if_neg (by decide), if_pos rfl]
  conv_lhs => rw [parseEsc.eq_def]
  dsimp only
  rw [if_neg (by decide), if_neg (by decide), if_neg (by decide), if_neg (by decide),
    if_pos rfl]

theorem step_esc_r (f : Nat) (tail : List Char) :
    parseStr (f + 1 + 1) (escapeChar '\r' ++ tail) = consStr '\r' (parseStr f tail) := by
  rw [show escapeChar '\r' = [bslash, 'r'] from rfl, List.cons_append,
    List.cons_append, List.nil_append]
  conv_lhs => rw [parseStr.eq_def]
  dsimp only
  rw [if_neg (by decide), if_pos rfl]
  conv_lhs => rw [parseEsc.eq_def]
  dsimp only
  rw [if_neg (by decide), if_neg (by decide), if_neg (by decide), if_neg (by decide),
    if_neg (by decide), if_neg (by decide), if_pos rfl]

theorem step_lit_esc (c : Char) (f : Nat) (tail : List Char)
    (h1 : ¬c = dquote) (h2 : ¬c = bslash) (h3 : ¬c = '\x08') (h4 : ¬c = '\t')
    (h5 : ¬c = '\n') (h6 : ¬c = '\x0c') (h7 : ¬c = '\r')
    (h8 : 0x20 ≤ c.toNat ∧ c.toNat ≤ 0x7e) :
    parseStr (f + 1) (escapeChar c ++ tail) = consStr c (parseStr f tail) := by
  have hesc : escapeChar c = [c] := by
    simp [escapeChar, h1, h2, h3, h4, h5, h6, h7, h8]
  rw [hesc, List.cons_append, List.nil_append]
  exact step_lit c f tail h1 h2

theorem parseStr_u_step (f : Nat) (tail2 : List Char) :
    parseStr (f + 1 + 1) (bslash :: 'u' :: tail2) = parseUEsc f tail2 := by
  conv_lhs => rw [parseStr.eq_def]
  dsimp only
  rw [if_neg (by decide), if_pos rfl]
  conv_lhs => rw [parseEsc.eq_def]
  dsimp only
  rw [if_neg (by decide), if_neg (by decide), if_neg (by decide), if_neg (by decide),
    if_neg (by decide), if_neg (by decide), if_neg (by decide), if_neg (by decide),
    if_pos rfl]

theorem parseUEsc_escHex4 (f n : Nat) (tail2 : List Char) (hn : n < 0x10000) :
    parseUEsc (f + 1) (escHex4 n ++ tail2)
      = if 0xD800 ≤ n ∧ n ≤ 0xDBFF then parseLowSur f n tail2
        else if 0xDC00 ≤ n ∧ n ≤ 0xDFFF then none
        else consStr (Char.ofNat n) (parseStr f tail2) := by
  rw [escHex4]
  simp only [List.cons_append, List.nil_append]
  conv_lhs => rw [parseUEsc.eq_def]
  dsimp only
  rw [hexVal_hexDigitChar _ (Nat.mod_lt _ (by omega)),
      hexVal_hexDigitChar _ (Nat.mod_lt _ (by omega)),
      hexVal_hexDigitChar _ (Nat.mod_lt _ (by omega)),
      hexVal_hexDigitChar _ (Nat.mod_lt _ (by omega))]
  dsimp only
  rw [hex4_decode _ hn]

theorem parseLowSur_escHex4 (f n lo : Nat) (tail2 : List Char) (hlo : lo < 0x10000)
    (hrange : 0xDC00 ≤ lo ∧ lo ≤ 0xDFFF) :
    parseLowSur (f + 1) n (bslash :: 'u' :: (escHex4 lo ++ tail2))
      = consStr (Char.ofNat (0x10000 + (n - 0xD800) * 0x400 + (lo - 0xDC00)))
          (parseStr f tail2) := by
  rw [escHex4]
  simp only [List.cons_append, List.nil_append]
  conv_lhs => rw [parseLowSur.eq_def]
  dsimp only
  rw [if_pos (show bslash = bslash ∧ 'u' = 'u' from ⟨rfl, rfl⟩)]
  rw [hexVal_hexDigitChar _ (Nat.mod_lt _ (by omega)),
      hexVal_hexDigitChar _ (Nat.mod_lt _ (by omega)),
      hexVal_hexDigitChar _ (Nat.mod_lt _ (by omega)),
      hexVal_hexDigitChar _ (Nat.mod_lt _ (by omega))]
  dsimp only
  rw [hex4_decode _ hlo]
  rw [if_pos hrange]

theorem step_u (c : Char) (f : Nat) (tail : List Char)
    (h1 : ¬c = dquote) (h2 : ¬c = bslash) (h3 : ¬c = '\x08') (h4 : ¬c = '\t')
    (h5 : ¬c = '\n') (h6 : ¬c = '\x0c') (h7 : ¬c = '\r')
    (h8 : ¬(0x20 ≤ c.toNat ∧ c.toNat ≤ 0x7e)) (h9 : c.toNat < 0x10000) :
    parseStr (f + 1 + 1 + 1) (escapeChar c ++ tail) = consStr c (parseStr f tail) := by
  have hesc : escapeChar c = bslash :: 'u' :: escHex4 c.toNat := by
    simp [escapeChar, h1, h2, h3, h4, h5, h6, h7, h8, h9]
  have hns1 : ¬(0xD800 ≤ c.toNat ∧ c.toNat ≤ 0xDBFF) := by
    rcases valid_char_cases c with hv | hv <;> omega
  have hns2 : ¬(0xDC00 ≤ c.toNat ∧ c.toNat ≤ 0xDFFF) := by
    rcases valid_char_cases c with hv | hv <;> omega
  rw [hesc, List.cons_append, List.cons_append]
  rw [parseStr_u_step, parseUEsc_escHex4 f c.toNat tail h9, if_neg hns1, if_neg hns2,
    charOfNat_toNat]

theorem step_astral (c : Char) (f : Nat) (tail : List Char)
    (h1 : ¬c = dquote) (h2 : ¬c = bslash) (h3 : ¬c = '\x08') (h4 : ¬c = '\t')
    (h5 : ¬c = '\n') (h6 : ¬c = '\x0c') (h7 : ¬c = '\r')
    (h8 : ¬(0x20 ≤ c.toNat ∧ c.toNat ≤ 0x7e)) (h9 : ¬c.toNat < 0x10000) :
    parseStr (f + 1 + 1 + 1 + 1) (escapeChar c ++ tail) = consStr c (parseStr f tail) := by
  have hlt : c.toNat < 0x110000 := by
    rcases valid_char_cases c with hv | hv <;> omega
  have hesc : escapeChar c
      = (bslash :: 'u' :: escHex4 (0xD800 + (c.toNat - 0x10000) / 0x400)) ++
        (bslash :: 'u' :: escHex4 (0xDC00 + (c.toNat - 0x10000) % 0x400)) := by
    simp [escapeChar, h1, h2, h3, h4, h5, h6, h7, h8, h9]
  have hhival : 0xD800 + (c.toNat - 0x10000) / 0x400 < 0x10000 := by omega
  have hmod : (c.toNat - 0x10000) % 0x400 < 0x400 :=
    Nat.mod_lt _ (by omega)
  have hloval : 0xDC00 + (c.toNat - 0x10000) % 0x400 < 0x10000 := by omega
  rw [hesc]
  simp only [List.cons_append, List.append_assoc]
  rw [parseStr_u_step (f + 1 + 1), parseUEsc_escHex4 (f + 1) _ _ hhival,
    if_pos (show 0xD800 ≤ 0xD800 + (c.toNat - 0x10000) / 0x400 ∧
      0xD800 + (c.toNat - 0x10000) / 0x400 ≤ 0xDBFF by omega)]
  rw [parseLowSur_escHex4 f _ _ tail hloval
    (show 0xDC00 ≤ 0xDC00 + (c.toNat - 0x10000) % 0x400 ∧
      0xDC00 + (c.toNat - 0x10000) % 0x400 ≤ 0xDFFF by omega)]
  have hcomb : 0x10000 + (0xD800 + (c.toNat - 0x10000) / 0x400 - 0xD800)
        * 0x400 + (0xDC00 + (c.toNat - 0x10000) % 0x400 - 0xDC00)
      = c.toNat := by
    have := Nat.div_add_mod (c.toNat - 0x10000) 0x400
    omega
  rw [hcomb, charOfNat_toNat]

theorem parseStr_strBody (k : List Char) :
    ∀ (fuel : Nat) (rest : List Char), 4 * k.length < fuel →
      parseStr fuel (strBody k ++ (dquote :: rest)) = some (k, rest) := by
  induction k with
  | nil =>
    intro fuel rest hf
    obtain ⟨f1, rfl⟩ : ∃ f1, fuel = f1 + 1 := ⟨fuel - 1, by omega⟩
    rw [show strBody [] = [] from rfl, List.nil_append]
    conv_lhs => rw [parseStr.eq_def]
    dsimp only
    rw [if_pos rfl]
  | cons c ks ih =>
    intro fuel rest hf
    rw [List.length_cons] at hf
    have hsplit : strBody (c :: ks) ++ (dquote :: rest)
        = escapeChar c ++ (strBody ks ++ (dquote :: rest)) := by
      simp [strBody, List.append_assoc]
    rw [hsplit]
    by_cases h1 : c = dquote
    · obtain ⟨f2, rfl⟩ : ∃ f2, fuel = f2 + 1 + 1 := ⟨fuel - 2, by omega⟩
      subst h1
      rw [step_esc_dq, ih f2 rest (by omega)]
      rfl
    · by_cases h2 : c = bslash
      · obtain ⟨f2, rfl⟩ : ∃ f2, fuel = f2 + 1 + 1 := ⟨fuel - 2, by omega⟩
        subst h2
        rw [step_esc_bs, ih f2 rest (by omega)]
        rfl
      · by_cases h3 : c = '\x08'
        · obtain ⟨f2, rfl⟩ : ∃ f2, fuel = f2 + 1 + 1 := ⟨fuel - 2, by omega⟩
          subst h3
          rw [step_esc_b, ih f2 rest (by omega)]
          rfl
        · by_cases h4 : c = '\t'
          · obtain ⟨f2, rfl⟩ : ∃ f2, fuel = f2 + 1 + 1 := ⟨fuel - 2, by omega⟩
            subst h4
            rw [step_esc_t, ih f2 rest (by omega)]
            rfl
          · by_cases h5 : c = '\n'
            · obtain ⟨f2, rfl⟩ : ∃ f2, fuel = f2 + 1 + 1 := ⟨fuel - 2, by omega⟩
              subst h5
              rw [step_esc_n, ih f2 rest (by omega)]
              rfl
            · by_cases h6 : c = '\x0c'
              · obtain ⟨f2, rfl⟩ : ∃ f2, fuel = f2 + 1 + 1 := ⟨fuel - 2, by omega⟩
                subst h6
                rw [step_esc_f, ih f2 rest (by omega)]
                rfl
              · by_cases h7 : c = '\r'
                · obtain ⟨f2, rfl⟩ : ∃ f2, fuel = f2 + 1 + 1 := ⟨fuel - 2, by omega⟩
                  subst h7
                  rw [step_esc_r, ih f2 rest (by omega)]
                  rfl
                · by_cases h8 : 0x20 ≤ c.toNat ∧ c.toNat ≤ 0x7e
                  · obtain ⟨f1, rfl⟩ : ∃ f1, fuel = f1 + 1 := ⟨fuel - 1, by omega⟩
                    rw [step_lit_esc c f1 _ h1 h2 h3 h4 h5 h6 h7 h8,
                      ih f1 rest (by omega)]
                    rfl
                  · by_cases h9 : c.toNat < 0x10000
                    · obtain ⟨f3, rfl⟩ : ∃ f3, fuel = f3 + 1 + 1 + 1 := ⟨fuel - 3, by omega⟩
                      rw [step_u c f3 _ h1 h2 h3 h4 h5 h6 h7 h8 h9,
                        ih f3 rest (by omega)]
                      rfl
                    · obtain ⟨f4, rfl⟩ : ∃ f4, fuel = f4 + 1 + 1 + 1 + 1 :=
                        ⟨fuel - 4, by omega⟩
                      rw [step_astral c f4 _ h1 h2 h3 h4 h5 h6 h7 h8 h9,
                        ih f4 rest (by omega)]
                      rfl

theorem needVal_pos (j : Json) : 1 ≤ needVal j := by
  cases j <;> simp only [needVal] <;> omega

theorem needItems_pos (xs : List Json) : 1 ≤ needItems xs := by
  cases xs <;> simp only [needItems] <;> omega

theorem needPairs_pos (kvs : List (List Char × Json)) : 1 ≤ needPairs kvs := by
  cases kvs <;> simp only [needPairs] <;> omega

theorem digit_ne_char (d x : Char) (h : d.isDigit = true) (hx : x.isDigit = false) :
    ¬d = x := by
  intro hdx
  subst hdx
  rw [h] at hx
  cases hx

theorem digit_not_jsonWs (d : Char) (h : d.isDigit = true) : isJsonWs d = false := by
  cases hc : isJsonWs d
  · rfl
  · exfalso
    simp only [isJsonWs, Bool.or_eq_true, decide_eq_true_eq] at hc
    rcases hc with ((rfl | rfl) | rfl) | rfl <;> exact absurd h (by decide)

theorem natDigits_cons (n : Nat) : ∃ d ds, natDigits n = d :: ds ∧ d.isDigit = true := by
  induction n using Nat.strong_induction_on with
  | _ n ih =>
    unfold natDigits
    split
    · rename_i h
      refine ⟨hexDigitChar n, [], rfl, ?_⟩
      have hall : ∀ d : Nat, d < 10 → (hexDigitChar d).isDigit = true := by decide
      exact hall n h
    · rename_i h
      obtain ⟨d, ds, hds, hdig⟩ := ih (n / 10) (Nat.div_lt_self (by omega) (by omega))
      refine ⟨d, ds ++ [hexDigitChar (n % 10)], ?_, hdig⟩
      rw [hds]
      rfl

theorem dumpsVal_cons (lvl : Nat) (j : Json) :
    ∃ c cs, dumpsVal lvl j = c :: cs ∧ isJsonWs c = false ∧ ¬c = ']' := by
  cases j with
  | null => exact ⟨'n', _, rfl, by decide, by decide⟩
  | bool b =>
    cases b
    · exact ⟨'f', _, rfl, by decide, by decide⟩
    · exact ⟨'t', _, rfl, by decide, by decide⟩
  | num n =>
    cases n with
    | ofNat m =>
      obtain ⟨d, ds, hds, hdig⟩ := natDigits_cons m
      refine ⟨d, ds, ?_, digit_not_jsonWs d hdig, digit_ne_char d ']' hdig (by decide)⟩
      rw [show dumpsVal lvl (Json.num (Int.ofNat m)) = natDigits m from rfl]
      exact hds
    | negSucc m => exact ⟨'-', _, rfl, by decide, by decide⟩
  | str s => exact ⟨dquote, _, rfl, by decide, by decide⟩
  | arr xs =>
    cases xs
    · exact ⟨'[', _, rfl, by decide, by decide⟩
    · exact ⟨'[', _, rfl, by decide, by decide⟩
  | obj kvs =>
    cases kvs
    · exact ⟨obrace, _, rfl, by decide, by decide⟩
    · exact ⟨obrace, _, rfl, by decide, by decide⟩

theorem parseVal_null (fuel lvl : Nat) (ws suffix : List Char)
    (hws : ws.all isJsonWs = true) :
    parseVal (fuel + 1) (ws ++ (dumpsVal lvl .null ++ suffix)) = some (.null, suffix) := by
  rw [show dumpsVal lvl Json.null = 'n' :: chars "ull" from rfl, List.cons_append]
  conv_lhs => rw [parseVal.eq_def]
  try dsimp only
  rw [skipWs_append_ws _ _ hws, skipWs_cons_not_ws _ _ (by decide)]
  try dsimp only
  rw [if_neg (by decide), if_neg (by decide), if_neg (by decide), if_neg (by decide),
    if_neg (by decide), if_pos rfl, if_pos (prefix_isPrefixOf_append _ _),
    show (3 : Nat) = (chars "ull").length from rfl, List.drop_left]

theorem parseVal_true (fuel lvl : Nat) (ws suffix : List Char)
    (hws : ws.all isJsonWs = true) :
    parseVal (fuel + 1) (ws ++ (dumpsVal lvl (.bool true) ++ suffix))
      = some (.bool true, suffix) := by
  rw [show dumpsVal lvl (Json.bool true) = 't' :: chars "rue" from rfl, List.cons_append]
  conv_lhs => rw [parseVal.eq_def]
  try dsimp only
  rw [skipWs_append_ws _ _ hws, skipWs_cons_not_ws _ _ (by decide)]
  try dsimp only
  rw [if_neg (by decide), if_neg (by decide), if_neg (by decide), if_pos rfl,
    if_pos (prefix_isPrefixOf_append _ _),
    show (3 : Nat) = (chars "rue").length from rfl, List.drop_left]

theorem parseVal_false (fuel lvl : Nat) (ws suffix : List Char)
    (hws : ws.all isJsonWs = true) :
    parseVal (fuel + 1) (ws ++ (dumpsVal lvl (.bool false) ++ suffix))
      = some (.bool false, suffix) := by
  rw [show dumpsVal lvl (Json.bool false) = 'f' :: chars "alse" from rfl, List.cons_append]
  conv_lhs => rw [parseVal.eq_def]
  try dsimp only
  rw [skipWs_append_ws _ _ hws, skipWs_cons_not_ws _ _ (by decide)]
  try dsimp only
  rw [if_neg (by decide), if_neg (by decide), if_neg (by decide), if_neg (by decide),
    if_pos rfl, if_pos (prefix_isPrefixOf_append _ _),
    show (4 : Nat) = (chars "alse").length from rfl, List.drop_left]

theorem parseVal_natnum (fuel lvl m : Nat) (ws suffix : List Char)
    (hws : ws.all isJsonWs = true)
    (hsuf : ∀ c cs, suffix = c :: cs → c.isDigit = false) :
    parseVal (fuel + 1) (ws ++ (dumpsVal lvl (.num (Int.ofNat m)) ++ suffix))
      = some (.num (Int.ofNat m), suffix) := by
  obtain ⟨d, ds, hnd, hdig⟩ := natDigits_cons m
  rw [show dumpsVal lvl (Json.num (Int.ofNat m)) = natDigits m from rfl, hnd,
    List.cons_append]
  conv_lhs => rw [parseVal.eq_def]
  try dsimp only
  rw [skipWs_append_ws _ _ hws, skipWs_cons_not_ws _ _ (digit_not_jsonWs d hdig)]
  try dsimp only
  rw [if_neg (digit_ne_char d obrace hdig (by decide)),
    if_neg (digit_ne_char d '[' hdig (by decide)),
    if_neg (digit_ne_char d dquote hdig (by decide)),
    if_neg (digit_ne_char d 't' hdig (by decide)),
    if_neg (digit_ne_char d 'f' hdig (by decide)),
    if_neg (digit_ne_char d 'n' hdig (by decide)),
    if_neg (digit_ne_char d '-' hdig (by decide)),
    if_pos hdig, ← List.cons_append, ← hnd, parseNat_natDigits m suffix hsuf]
  try dsimp only
  rfl

theorem parseVal_negnum (fuel lvl m : Nat) (ws suffix : List Char)
    (hws : ws.all isJsonWs = true)
    (hsuf : ∀ c cs, suffix = c :: cs → c.isDigit = false) :
    parseVal (fuel + 1) (ws ++ (dumpsVal lvl (.num (Int.negSucc m)) ++ suffix))
      = some (.num (Int.negSucc m), suffix) := by
  rw [show dumpsVal lvl (Json.num (Int.negSucc m)) = '-' :: natDigits (m + 1) from rfl,
    List.cons_append]
  conv_lhs => rw [parseVal.eq_def]
  try dsimp only
  rw [skipWs_append_ws _ _ hws, skipWs_cons_not_ws _ _ (by decide)]
  try dsimp only
  rw [if_neg (by decide), if_neg (by decide), if_neg (by decide), if_neg (by decide),
    if_neg (by decide), if_neg (by decide), if_pos rfl,
    parseNat_natDigits (m + 1) suffix hsuf]
  have hneg : (-(((m : Nat) + 1 : Nat) : Int)) = Int.negSucc m := by
    rw [Int.negSucc_eq]
    push_cast
    ring
  try dsimp only
  rw [hneg]

theorem parseVal_str (fuel lvl : Nat) (s : List Char) (ws suffix : List Char)
    (hws : ws.all isJsonWs = true) (hf : 4 * s.length < fuel) :
    parseVal (fuel + 1) (ws ++ (dumpsVal lvl (.str s) ++ suffix))
      = some (.str s, suffix) := by
  rw [show dumpsVal lvl (Json.str s) = dquote :: (strBody s ++ [dquote]) from rfl,
    List.cons_append]
  conv_lhs => rw [parseVal.eq_def]
  try dsimp only
  rw [skipWs_append_ws _ _ hws, skipWs_cons_not_ws _ _ (by decide)]
  try dsimp only
  rw [if_neg (by decide), if_neg (by decide), if_pos rfl, List.append_assoc,
    List.singleton_append, parseStr_strBody s fuel suffix hf]

theorem parseVal_arr_nil (f2 lvl : Nat) (ws suffix : List Char)
    (hws : ws.all isJsonWs = true) :
    parseVal (f2 + 1 + 1) (ws ++ (dumpsVal lvl (.arr []) ++ suffix))
      = some (.arr [], suffix) := by
  rw [show dumpsVal lvl (Json.arr []) = '[' :: [']'] from rfl, List.cons_append]
  conv_lhs => rw [parseVal.eq_def]
  try dsimp only
  rw [skipWs_append_ws _ _ hws, skipWs_cons_not_ws _ _ (by decide)]
  try dsimp only
  rw [if_neg (by decide), if_pos rfl]
  conv_lhs => rw [parseArrBody.eq_def]
  try dsimp only
  rw [List.singleton_append, skipWs_cons_not_ws _ _ (by decide)]
  try dsimp only
  rw [if_pos rfl]

theorem parseVal_arr_cons (f2 lvl : Nat) (x : Json) (xs : List Json)
    (ws suffix : List Char) (hws : ws.all isJsonWs = true)
    (hval : parseVal f2 (dumpsVal (lvl + 1) x ++
        (dumpsItems (lvl + 1) xs ++ (nlIndent lvl ++ (']' :: suffix))))
      = some (x, dumpsItems (lvl + 1) xs ++ (nlIndent lvl ++ (']' :: suffix))))
    (hrest : parseArrRest f2 (dumpsItems (lvl + 1) xs ++ (nlIndent lvl ++ (']' :: suffix)))
      = some (xs, suffix)) :
    parseVal (f2 + 1 + 1) (ws ++ (dumpsVal lvl (.arr (x :: xs)) ++ suffix))
      = some (.arr (x :: xs), suffix) := by
  obtain ⟨cx, csx, hdx, hcx1, hcx2⟩ := dumpsVal_cons (lvl + 1) x
  have hform : dumpsVal lvl (.arr (x :: xs)) ++ suffix
      = '[' :: (nlIndent (lvl + 1) ++ (dumpsVal (lvl + 1) x ++
          (dumpsItems (lvl + 1) xs ++ (nlIndent lvl ++ (']' :: suffix))))) := by
    rw [show dumpsVal lvl (Json.arr (x :: xs))
        = '[' :: (nlIndent (lvl + 1) ++ (dumpsVal (lvl + 1) x ++ (dumpsItems (lvl + 1) xs ++
            (nlIndent lvl ++ [']'])))) from rfl]
    simp [List.append_assoc]
  rw [hform]
  conv_lhs => rw [parseVal.eq_def]
  try dsimp only
  rw [skipWs_append_ws _ _ hws, skipWs_cons_not_ws _ _ (by decide)]
  try dsimp only
  rw [if_neg (by decide), if_pos rfl]
  conv_lhs => rw [parseArrBody.eq_def]
  try dsimp only
  rw [skipWs_append_ws _ _ (nlIndent_all_ws _), hdx, List.cons_append,
    skipWs_cons_not_ws _ _ hcx1]
  try dsimp only
  rw [if_neg hcx2, ← List.cons_append, ← hdx, hval]
  try dsimp only
  rw [hrest]

theorem parseVal_obj_nil (f2 lvl : Nat) (ws suffix : List Char)
    (hws : ws.all isJsonWs = true) :
    parseVal (f2 + 1 + 1) (ws ++ (dumpsVal lvl (.obj []) ++ suffix))
      = some (.obj [], suffix) := by
  rw [show dumpsVal lvl (Json.obj []) = obrace :: [cbrace] from rfl, List.cons_append]
  conv_lhs => rw [parseVal.eq_def]
  try dsimp only
  rw [skipWs_append_ws _ _ hws, skipWs_cons_not_ws _ _ (by decide)]
  try dsimp only
  rw [if_pos rfl]
  conv_lhs => rw [parseObjBody.eq_def]
  try dsimp only
  rw [List.singleton_append, skipWs_cons_not_ws _ _ (by decide)]
  try dsimp only
  rw [if_pos rfl]

theorem parseVal_obj_cons (f2 lvl : Nat) (k : List Char) (v : Json)
    (kvs : List (List Char × Json)) (ws suffix : List Char)
    (hws : ws.all isJsonWs = true) (hkf : 4 * k.length < f2)
    (hval : parseVal f2 (' ' :: (dumpsVal (lvl + 1) v ++
        (dumpsPairs (lvl + 1) kvs ++ (nlIndent lvl ++ (cbrace :: suffix)))))
      = some (v, dumpsPairs (lvl + 1) kvs ++ (nlIndent lvl ++ (cbrace :: suffix))))
    (hrest : parseObjRest f2 (dumpsPairs (lvl + 1) kvs ++ (nlIndent lvl ++ (cbrace :: suffix)))
      = some (kvs, suffix)) :
    parseVal (f2 + 1 + 1) (ws ++ (dumpsVal lvl (.obj ((k, v) :: kvs)) ++ suffix))
      = some (.obj ((k, v) :: kvs), suffix) := by
  have hform : dumpsVal lvl (.obj ((k, v) :: kvs)) ++ suffix
      = obrace :: (nlIndent (lvl + 1) ++ (dquote :: (strBody k ++ (dquote ::
          (':' :: (' ' :: (dumpsVal (lvl + 1) v ++ (dumpsPairs (lvl + 1) kvs ++
            (nlIndent lvl ++ (cbrace :: suffix)))))))))) := by
    rw [show dumpsVal lvl (Json.obj ((k, v) :: kvs))
        = obrace :: (nlIndent (lvl + 1) ++ (encodeStr k ++ (':' :: ' ' ::
            dumpsVal (lvl + 1) v ++ (dumpsPairs (lvl + 1) kvs ++
              (nlIndent lvl ++ [cbrace]))))) from rfl, encodeStr]
    simp [List.append_assoc]
  rw [hform]
  conv_lhs => rw [parseVal.eq_def]
  try dsimp only
  rw [skipWs_append_ws _ _ hws, skipWs_cons_not_ws _ _ (by decide)]
  try dsimp only
  rw [if_pos rfl]
  conv_lhs => rw [parseObjBody.eq_def]
  try dsimp only
  rw [skipWs_append_ws _ _ (nlIndent_all_ws _), skipWs_cons_not_ws _ _ (by decide)]
  try dsimp only
  rw [if_neg (by decide), if_pos rfl, parseStr_strBody k f2 _ hkf]
  try dsimp only
  rw [skipWs_cons_not_ws _ _ (by decide)]
  split
  · rename_i r2 heq
    injection heq with h1 h2
    subst h2
    rw [hval]
    try dsimp only
    rw [hrest]
  · rename_i hne
    exact (hne _ rfl).elim

theorem arrRest_nil (f lvlA lvlB : Nat) (suffix : List Char) :
    parseArrRest (f + 1) (dumpsItems lvlA [] ++ (nlIndent lvlB ++ (']' :: suffix)))
      = some ([], suffix) := by
  rw [show dumpsItems lvlA [] = [] from rfl, List.nil_append]
  conv_lhs => rw [parseArrRest.eq_def]
  try dsimp only
  rw [skipWs_append_ws _ _ (nlIndent_all_ws _), skipWs_cons_not_ws _ _ (by decide)]
  try dsimp only
  rw [if_pos rfl]

theorem arrRest_cons (f lvlA lvlB : Nat) (y : Json) (ys : List Json) (suffix : List Char)
    (hval : parseVal f (nlIndent lvlA ++ (dumpsVal lvlA y ++
        (dumpsItems lvlA ys ++ (nlIndent lvlB ++ (']' :: suffix)))))
      = some (y, dumpsItems lvlA ys ++ (nlIndent lvlB ++ (']' :: suffix))))
    (hrest : parseArrRest f (dumpsItems lvlA ys ++ (nlIndent lvlB ++ (']' :: suffix)))
      = some (ys, suffix)) :
    parseArrRest (f + 1) (dumpsItems lvlA (y :: ys) ++ (nlIndent lvlB ++ (']' :: suffix)))
      = some (y :: ys, suffix) := by
  have hform : dumpsItems lvlA (y :: ys) ++ (nlIndent lvlB ++ (']' :: suffix))
      = ',' :: (nlIndent lvlA ++ (dumpsVal lvlA y ++
          (dumpsItems lvlA ys ++ (nlIndent lvlB ++ (']' :: suffix))))) := by
    rw [show dumpsItems lvlA (y :: ys)
        = ',' :: (nlIndent lvlA ++ (dumpsVal lvlA y ++ dumpsItems lvlA ys)) from rfl]
    simp [List.append_assoc]
  rw [hform]
  conv_lhs => rw [parseArrRest.eq_def]
  try dsimp only
  rw [skipWs_cons_not_ws _ _ (by decide)]
  try dsimp only
  rw [if_neg (by decide), if_pos rfl, hval]
  try dsimp only
  rw [hrest]

theorem objRest_nil (f lvlA lvlB : Nat) (suffix : List Char) :
    parseObjRest (f + 1) (dumpsPairs lvlA [] ++ (nlIndent lvlB ++ (cbrace :: suffix)))
      = some ([], suffix) := by
  rw [show dumpsPairs lvlA [] = [] from rfl, List.nil_append]
  conv_lhs => rw [parseObjRest.eq_def]
  try dsimp only
  rw [skipWs_append_ws _ _ (nlIndent_all_ws _), skipWs_cons_not_ws _ _ (by decide)]
  try dsimp only
  rw [if_pos rfl]

theorem objRest_cons (f lvlA lvlB : Nat) (k : List Char) (v : Json)
    (kvs : List (List Char × Json)) (suffix : List Char) (hkf : 4 * k.length < f)
    (hval : parseVal f (' ' :: (dumpsVal lvlA v ++
        (dumpsPairs lvlA kvs ++ (nlIndent lvlB ++ (cbrace :: suffix)))))
      = some (v, dumpsPairs lvlA kvs ++ (nlIndent lvlB ++ (cbrace :: suffix))))
    (hrest : parseObjRest f (dumpsPairs lvlA kvs ++ (nlIndent lvlB ++ (cbrace :: suffix)))
      = some (kvs, suffix)) :
    parseObjRest (f + 1) (dumpsPairs lvlA ((k, v) :: kvs) ++
        (nlIndent lvlB ++ (cbrace :: suffix)))
      = some ((k, v) :: kvs, suffix) := by
  have hform : dumpsPairs lvlA ((k, v) :: kvs) ++ (nlIndent lvlB ++ (cbrace :: suffix))
      = ',' :: (nlIndent lvlA ++ (dquote :: (strBody k ++ (dquote ::
          (':' :: (' ' :: (dumpsVal lvlA v ++ (dumpsPairs lvlA kvs ++
            (nlIndent lvlB ++ (cbrace :: suffix)))))))))) := by
    rw [show dumpsPairs lvlA ((k, v) :: kvs)
        = ',' :: (nlIndent lvlA ++ (encodeStr k ++ (':' :: ' ' :: dumpsVal lvlA v ++
            dumpsPairs lvlA kvs))) from rfl, encodeStr]
    simp [List.append_assoc]
  rw [hform]
  conv_lhs => rw [parseObjRest.eq_def]
  try dsimp only
  rw [skipWs_cons_not_ws _ _ (by decide)]
  try dsimp only
  rw [if_neg (by decide), if_pos rfl,
    skipWs_append_ws _ _ (nlIndent_all_ws _), skipWs_cons_not_ws _ _ (by decide)]
  try dsimp only
  rw [if_pos rfl, parseStr_strBody k f _ hkf]
  try dsimp only
  rw [skipWs_cons_not_ws _ _ (by decide)]
  split
  · rename_i r2 heq
    injection heq with h1 h2
    subst h2
    rw [hval]
    try dsimp only
    rw [hrest]
  · rename_i hne
    exact (hne _ rfl).elim

theorem digitFree_items (lvlA lvlB : Nat) (xs : List Json) (suffix : List Char) :
    ∀ c cs, dumpsItems lvlA xs ++ (nlIndent lvlB ++ (']' :: suffix)) = c :: cs →
      c.isDigit = false := by
  intro c cs h
  cases xs with
  | nil =>
    rw [show dumpsItems lvlA [] = [] from rfl, List.nil_append,
      show nlIndent lvlB = '\n' :: List.replicate (2 * lvlB) ' ' from rfl,
      List.cons_append] at h
    injection h with h1 h2
    rw [← h1]
    decide
  | cons x xs =>
    rw [show dumpsItems lvlA (x :: xs)
        = ',' :: (nlIndent lvlA ++ (dumpsVal lvlA x ++ dumpsItems lvlA xs)) from rfl,
      List.cons_append] at h
    injection h with h1 h2
    rw [← h1]
    decide

theorem digitFree_pairs (lvlA lvlB : Nat) (kvs : List (List Char × Json))
    (suffix : List Char) :
    ∀ c cs, dumpsPairs lvlA kvs ++ (nlIndent lvlB ++ (cbrace :: suffix)) = c :: cs →
      c.isDigit = false := by
  intro c cs h
  cases kvs with
  | nil =>
    rw [show dumpsPairs lvlA [] = [] from rfl, List.nil_append,
      show nlIndent lvlB = '\n' :: List.replicate (2 * lvlB) ' ' from rfl,
      List.cons_append] at h
    injection h with h1 h2
    rw [← h1]
    decide
  | cons kv kvs =>
    rw [show dumpsPairs lvlA (kv :: kvs)
        = ',' :: (nlIndent lvlA ++ (encodeStr kv.1 ++ (':' :: ' ' :: dumpsVal lvlA kv.2 ++
            dumpsPairs lvlA kvs))) from rfl,
      List.cons_append] at h
    injection h with h1 h2
    rw [← h1]
    decide

/-- Joint round-trip statement for `parseVal`, `parseArrRest` and `parseObjRest`
on serialized output, by strong induction on the fuel. -/
theorem parse_dumps (fuel : Nat) :
    (∀ lvl j ws suffix, needVal j ≤ fuel → ws.all isJsonWs = true →
      (∀ c cs, suffix = c :: cs → c.isDigit = false) →
      parseVal fuel (ws ++ (dumpsVal lvl j ++ suffix)) = some (j, suffix))
  ∧ (∀ lvlA lvlB xs suffix, needItems xs ≤ fuel →
      parseArrRest fuel (dumpsItems lvlA xs ++ (nlIndent lvlB ++ (']' :: suffix)))
        = some (xs, suffix))
  ∧ (∀ lvlA lvlB kvs suffix, needPairs kvs ≤ fuel →
      parseObjRest fuel (dumpsPairs lvlA kvs ++ (nlIndent lvlB ++ (cbrace :: suffix)))
        = some (kvs, suffix)) := by
  induction fuel using Nat.strong_induction_on with
  | _ fuel IH =>
  refine ⟨?_, ?_, ?_⟩
  · intro lvl j ws suffix hneed hws hsuf
    cases j with
    | null =>
      obtain ⟨f, rfl⟩ : ∃ f, fuel = f + 1 :=
        ⟨fuel - 1, by simp only [needVal] at hneed; omega⟩
      exact parseVal_null f lvl ws suffix hws
    | bool b =>
      obtain ⟨f, rfl⟩ : ∃ f, fuel = f + 1 :=
        ⟨fuel - 1, by simp only [needVal] at hneed; omega⟩
      cases b with
      | false => exact parseVal_false f lvl ws suffix hws
      | true => exact parseVal_true f lvl ws suffix hws
    | num n =>
      obtain ⟨f, rfl⟩ : ∃ f, fuel = f + 1 :=
        ⟨fuel - 1, by simp only [needVal] at hneed; omega⟩
      cases n with
      | ofNat m => exact parseVal_natnum f lvl m ws suffix hws hsuf
      | negSucc m => exact parseVal_negnum f lvl m ws suffix hws hsuf
    | str s =>
      obtain ⟨f, rfl⟩ : ∃ f, fuel = f + 1 :=
        ⟨fuel - 1, by simp only [needVal] at hneed; omega⟩
      refine parseVal_str f lvl s ws suffix hws ?_
      simp only [needVal] at hneed
      omega
    | arr xs =>
      cases xs with
      | nil =>
        obtain ⟨f2, rfl⟩ : ∃ f2, fuel = f2 + 1 + 1 :=
          ⟨fuel - 2, by simp only [needVal, needItems] at hneed; omega⟩
        exact parseVal_arr_nil f2 lvl ws suffix hws
      | cons x xs =>
        have hx : needVal x ≤ fuel - 2 := by
          simp only [needVal, needItems] at hneed; omega
        have hxs : needItems xs ≤ fuel - 2 := by
          simp only [needVal, needItems] at hneed; omega
        obtain ⟨f2, rfl⟩ : ∃ f2, fuel = f2 + 1 + 1 := by
          refine ⟨fuel - 2, ?_⟩
          have h1 := needVal_pos x
          simp only [needVal, needItems] at hneed
          omega
        have hA := (IH f2 (by omega)).1
        have hB := (IH f2 (by omega)).2.1
        refine parseVal_arr_cons f2 lvl x xs ws suffix hws ?_ ?_
        · exact hA (lvl + 1) x []
            (dumpsItems (lvl + 1) xs ++ (nlIndent lvl ++ (']' :: suffix)))
            hx rfl (digitFree_items (lvl + 1) lvl xs suffix)
        · exact hB (lvl + 1) lvl xs suffix hxs
    | obj kvs =>
      cases kvs with
      | nil =>
        obtain ⟨f2, rfl⟩ : ∃ f2, fuel = f2 + 1 + 1 :=
          ⟨fuel - 2, by simp only [needVal, needPairs] at hneed; omega⟩
        exact parseVal_obj_nil f2 lvl ws suffix hws
      | cons kv kvs =>
        obtain ⟨k, v⟩ := kv
        have hk : 4 * k.length < fuel - 2 := by
          have h1 := needVal_pos v
          have h2 := needPairs_pos kvs
          simp only [needVal, needPairs] at hneed
          omega
        have hv : needVal v ≤ fuel - 2 := by
          simp only [needVal, needPairs] at hneed; omega
        have hkvs : needPairs kvs ≤ fuel - 2 := by
          simp only [needVal, needPairs] at hneed; omega
        obtain ⟨f2, rfl⟩ : ∃ f2, fuel = f2 + 1 + 1 := by
          refine ⟨fuel - 2, ?_⟩
          have h1 := needVal_pos v
          simp only [needVal, needPairs] at hneed
          omega
        have hA := (IH f2 (by omega)).1
        have hC := (IH f2 (by omega)).2.2
        refine parseVal_obj_cons f2 lvl k v kvs ws suffix hws hk ?_ ?_
        · exact hA (lvl + 1) v [' ']
            (dumpsPairs (lvl + 1) kvs ++ (nlIndent lvl ++ (cbrace :: suffix)))
            hv (by decide) (digitFree_pairs (lvl + 1) lvl kvs suffix)
        · exact hC (lvl + 1) lvl kvs suffix hkvs
  · intro lvlA lvlB xs suffix hneed
    cases xs with
    | nil =>
      obtain ⟨f, rfl⟩ : ∃ f, fuel = f + 1 :=
        ⟨fuel - 1, by simp only [needItems] at hneed; omega⟩
      exact arrRest_nil f lvlA lvlB suffix
    | cons y ys =>
      have hy : needVal y ≤ fuel - 1 := by simp only [needItems] at hneed; omega
      have hys : needItems ys ≤ fuel - 1 := by simp only [needItems] at hneed; omega
      obtain ⟨f, rfl⟩ : ∃ f, fuel = f + 1 := by
        refine ⟨fuel - 1, ?_⟩
        have h1 := needVal_pos y
        simp only [needItems] at hneed
        omega
      have hA := (IH f (by omega)).1
      have hB := (IH f (by omega)).2.1
      exact arrRest_cons f lvlA lvlB y ys suffix
        (hA lvlA y (nlIndent lvlA)
          (dumpsItems lvlA ys ++ (nlIndent lvlB ++ (']' :: suffix)))
          hy (nlIndent_all_ws lvlA) (digitFree_items lvlA lvlB ys suffix))
        (hB lvlA lvlB ys suffix hys)
  · intro lvlA lvlB kvs suffix hneed
    cases kvs with
    | nil =>
      obtain ⟨f, rfl⟩ : ∃ f, fuel = f + 1 :=
        ⟨fuel - 1, by simp only [needPairs] at hneed; omega⟩
      exact objRest_nil f lvlA lvlB suffix
    | cons kv kvs =>
      obtain ⟨k, v⟩ := kv
      have hk : 4 * k.length < fuel - 1 := by
        have h1 := needVal_pos v
        have h2 := needPairs_pos kvs
        simp only [needPairs] at hneed
        omega
      have hv : needVal v ≤ fuel - 1 := by
        simp only [needPairs] at hneed; omega
      have hkvs : needPairs kvs ≤ fuel - 1 := by
        simp only [needPairs] at hneed; omega
      obtain ⟨f, rfl⟩ : ∃ f, fuel = f + 1 := by
        refine ⟨fuel - 1, ?_⟩
        have h1 := needVal_pos v
        simp only [needPairs] at hneed
        omega
      have hA := (IH f (by omega)).1
      have hC := (IH f (by omega)).2.2
      exact objRest_cons f lvlA lvlB k v kvs suffix hk
        (hA lvlA v [' ']
          (dumpsPairs lvlA kvs ++ (nlIndent lvlB ++ (cbrace :: suffix)))
          hv (by decide) (digitFree_pairs lvlA lvlB kvs suffix))
        (hC lvlA lvlB kvs suffix hkvs)

theorem escapeChar_length_pos (c : Char) : 1 ≤ (escapeChar c).length := by
  unfold escapeChar
  repeat' split
  all_goals simp [escHex4]

theorem strBody_length_ge (s : List Char) : s.length ≤ (strBody s).length := by
  induction s with
  | nil => simp [strBody]
  | cons c cs ih =>
    have h := escapeChar_length_pos c
    simp only [strBody, List.map_cons, List.flatten_cons, List.length_append,
      List.length_cons] at *
    omega

theorem intDigits_length_pos (n : Int) : 1 ≤ (intDigits n).length := by
  cases n with
  | ofNat m =>
    rw [show intDigits (Int.ofNat m) = natDigits m from rfl]
    exact List.length_pos.mpr (natDigits_length_pos m)
  | negSucc m =>
    rw [show intDigits (Int.negSucc m) = '-' :: natDigits (m + 1) from rfl]
    simp

/-- The fuel functions are dominated by four times the serialized length, so
the fuel chosen by `loads` always suffices for output of `dumps`. -/
theorem need_le_dumps (n : Nat) :
    (∀ j : Json, sizeOf j ≤ n → ∀ lvl, needVal j ≤ 4 * (dumpsVal lvl j).length)
  ∧ (∀ xs : List Json, sizeOf xs ≤ n → ∀ lvl,
      needItems xs ≤ 4 * (dumpsItems lvl xs).length + 1)
  ∧ (∀ kvs : List (List Char × Json), sizeOf kvs ≤ n → ∀ lvl,
      needPairs kvs ≤ 4 * (dumpsPairs lvl kvs).length + 1) := by
  induction n using Nat.strong_induction_on with
  | _ n IH =>
  refine ⟨?_, ?_, ?_⟩
  · intro j hsz lvl
    cases j with
    | null =>
      have h : (dumpsVal lvl Json.null).length = 4 := rfl
      simp only [needVal]
      omega
    | bool b =>
      cases b with
      | false =>
        have h : (dumpsVal lvl (Json.bool false)).length = 5 := rfl
        simp only [needVal]
        omega
      | true =>
        have h : (dumpsVal lvl (Json.bool true)).length = 4 := rfl
        simp only [needVal]
        omega
    | num m =>
      have h : (dumpsVal lvl (Json.num m)).length = (intDigits m).length := rfl
      have h2 := intDigits_length_pos m
      simp only [needVal]
      omega
    | str s =>
      have h1 := strBody_length_ge s
      have h2 : (dumpsVal lvl (Json.str s)).length = (strBody s).length + 2 := by
        rw [show dumpsVal lvl (Json.str s)
            = dquote :: (strBody s ++ [dquote]) from rfl]
        simp
      simp only [needVal]
      omega
    | arr xs =>
      cases xs with
      | nil =>
        have h : (dumpsVal lvl (Json.arr [])).length = 2 := rfl
        simp only [needVal, needItems]
        omega
      | cons x xs =>
        simp only [Json.arr.sizeOf_spec] at hsz
        have h1 : 1 ≤ sizeOf (x :: xs) := by
          simp only [List.cons.sizeOf_spec]
          omega
        have hB := (IH (n - 1) (by omega)).2.1 (x :: xs) (by omega) (lvl + 1)
        have hlen : (dumpsVal lvl (Json.arr (x :: xs))).length
            = (dumpsItems (lvl + 1) (x :: xs)).length + (2 * lvl + 2) := by
          rw [show dumpsVal lvl (Json.arr (x :: xs))
              = '[' :: (nlIndent (lvl + 1) ++ (dumpsVal (lvl + 1) x ++
                  (dumpsItems (lvl + 1) xs ++ (nlIndent lvl ++ [']'])))) from rfl,
            show dumpsItems (lvl + 1) (x :: xs)
              = ',' :: (nlIndent (lvl + 1) ++ (dumpsVal (lvl + 1) x ++
                  dumpsItems (lvl + 1) xs)) from rfl]
          simp [nlIndent]
          omega
        simp only [needVal]
        omega
    | obj kvs =>
      cases kvs with
      | nil =>
        have h : (dumpsVal lvl (Json.obj [])).length = 2 := rfl
        simp only [needVal, needPairs]
        omega
      | cons kv kvs =>
        simp only [Json.obj.sizeOf_spec] at hsz
        have h1 : 1 ≤ sizeOf (kv :: kvs) := by
          simp only [List.cons.sizeOf_spec]
          omega
        have hC := (IH (n - 1) (by omega)).2.2 (kv :: kvs) (by omega) (lvl + 1)
        have hlen : (dumpsVal lvl (Json.obj (kv :: kvs))).length
            = (dumpsPairs (lvl + 1) (kv :: kvs)).length + (2 * lvl + 2) := by
          rw [show dumpsVal lvl (Json.obj (kv :: kvs))
              = obrace :: (nlIndent (lvl + 1) ++ (encodeStr kv.1 ++ (':' :: ' ' ::
                  dumpsVal (lvl + 1) kv.2 ++ (dumpsPairs (lvl + 1) kvs ++
                    (nlIndent lvl ++ [cbrace]))))) from rfl,
            show dumpsPairs (lvl + 1) (kv :: kvs)
              = ',' :: (nlIndent (lvl + 1) ++ (encodeStr kv.1 ++ (':' :: ' ' ::
                  dumpsVal (lvl + 1) kv.2 ++ dumpsPairs (lvl + 1) kvs))) from rfl]
          simp [nlIndent]
          omega
        simp only [needVal]
        omega
  · intro xs hsz lvl
    cases xs with
    | nil =>
      have h : (dumpsItems lvl []).length = 0 := rfl
      simp only [needItems]
      omega
    | cons x xs =>
      simp only [List.cons.sizeOf_spec] at hsz
      have hszx : 1 ≤ sizeOf x := by cases x <;> simp <;> omega
      have hA := (IH (n - 1) (by omega)).1 x (by omega) lvl
      have hB := (IH (n - 1) (by omega)).2.1 xs (by omega) lvl
      have hlen : (dumpsItems lvl (x :: xs)).length
          = (dumpsVal lvl x).length + (dumpsItems lvl xs).length + (2 * lvl + 2) := by
        rw [show dumpsItems lvl (x :: xs)
            = ',' :: (nlIndent lvl ++ (dumpsVal lvl x ++ dumpsItems lvl xs)) from rfl]
        simp [nlIndent]
        omega
      simp only [needItems]
      omega
  · intro kvs hsz lvl
    cases kvs with
    | nil =>
      have h : (dumpsPairs lvl []).length = 0 := rfl
      simp only [needPairs]
      omega
    | cons kv kvs =>
      obtain ⟨k, v⟩ := kv
      simp only [List.cons.sizeOf_spec, Prod.mk.sizeOf_spec] at hsz
      have hszv : 1 ≤ sizeOf v := by cases v <;> simp <;> omega
      have hA := (IH (n - 1) (by omega)).1 v (by omega) lvl
      have hC := (IH (n - 1) (by omega)).2.2 kvs (by omega) lvl
      have hk := strBody_length_ge k
      have hlen : (dumpsPairs lvl ((k, v) :: kvs)).length
          = (strBody k).length + (dumpsVal lvl v).length + (dumpsPairs lvl kvs).length
            + (2 * lvl + 6) := by
        rw [show dumpsPairs lvl ((k, v) :: kvs)
            = ',' :: (nlIndent lvl ++ (encodeStr (k, v).1 ++ (':' :: ' ' ::
                dumpsVal lvl (k, v).2 ++ dumpsPairs lvl kvs))) from rfl]
        simp [nlIndent, encodeStr]
        omega
      simp only [needPairs]
      omega

/-- `json.loads` inverts `json.dumps(indent=2)` on every JSON-safe value. -/
theorem loads_dumpsVal (j : Json) : loads (dumpsVal 0 j) = some j := by
  unfold loads
  have hneed : needVal j ≤ 4 * (dumpsVal 0 j).length + 4 := by
    have h := (need_le_dumps (sizeOf j)).1 j le_rfl 0
    omega
  have h := (parse_dumps (4 * (dumpsVal 0 j).length + 4)).1 0 j [] [] hneed rfl
    (fun c cs hh => nomatch hh)
  rw [List.nil_append, List.append_nil] at h
  rw [h]
  rfl

end PyJson

namespace Report

open PyJson

theorem effectiveFormats_some (fs : List (List Char)) (h : fs ≠ []) :
    effectiveFormats (some fs) = fs := by
  cases fs with
  | nil => exact absurd rfl h
  | cons a l => rfl

theorem contains_true_of_mem (l : List (List Char)) (x : List Char) (h : x ∈ l) :
    l.contains x = true :=
  List.elem_iff.mpr h

theorem contains_false_of_not_mem (l : List (List Char)) (x : List Char)
    (h : x ∉ l) : l.contains x = false := by
  cases hc : l.contains x with
  | false => rfl
  | true => exact absurd (List.elem_iff.mp hc) h

theorem unsupported_nil (fs : List (List Char))
    (h : ∀ f ∈ fs, f ∈ SUPPORTED_FORMATS) :
    ((fs.filter (fun f => !SUPPORTED_FORMATS.contains f)).dedup).isEmpty = true := by
  have hf : fs.filter (fun f => !SUPPORTED_FORMATS.contains f) = [] := by
    rw [List.filter_eq_nil]
    intro a ha
    simp
    exact h a ha
  rw [hf]
  rfl

theorem generate_eq_err (rh : List (List Char × Json) → List Char)
    (ps : Json → List Char) (p d : Bool) (bp : List Char)
    (results : List (List Char × Json)) (fs : List (List Char)) (f0 : List Char)
    (hf0 : f0 ∈ fs) (hbad : f0 ∉ SUPPORTED_FORMATS) :
    generate rh ps p d bp results (some fs)
      = ⟨[], none, .error (GenError.valueError (valueErrorMsg
          ((fs.filter (fun f => !SUPPORTED_FORMATS.contains f)).dedup)))⟩ := by
  have hne : fs ≠ [] := by
    intro h
    rw [h] at hf0
    cases hf0
  have hmem : f0 ∈ (fs.filter (fun f => !SUPPORTED_FORMATS.contains f)).dedup := by
    rw [List.mem_dedup, List.mem_filter]
    refine ⟨hf0, by simp; exact hbad⟩
  have hemp : ((fs.filter (fun f => !SUPPORTED_FORMATS.contains f)).dedup).isEmpty
      = false := by
    cases hll : (fs.filter (fun f => !SUPPORTED_FORMATS.contains f)).dedup with
    | nil =>
      rw [hll] at hmem
      cases hmem
    | cons a l => rfl
  unfold generate
  rw [effectiveFormats_some fs hne]
  dsimp only
  rw [hemp, if_neg Bool.false_ne_true]

theorem generate_eq_no_md (rh : List (List Char × Json) → List Char)
    (ps : Json → List Char) (p d : Bool) (bp : List Char)
    (results : List (List Char × Json)) (fs : List (List Char))
    (hne : fs ≠ []) (hsup : ∀ f ∈ fs, f ∈ SUPPORTED_FORMATS)
    (hnomd : fs.contains (chars "md") = false) :
    generate rh ps p d bp results (some fs)
      = ⟨jsonFilesOf bp results fs ++ htmlFilesOf rh bp results fs
            ++ lateFiles p d bp results fs,
         some (rh results),
         .ok ((jsonFilesOf bp results fs ++ htmlFilesOf rh bp results fs
            ++ lateFiles p d bp results fs).map Prod.fst)⟩ := by
  unfold generate
  rw [effectiveFormats_some fs hne]
  dsimp only
  rw [unsupported_nil fs hsup, if_pos rfl, hnomd, if_neg Bool.false_ne_true]

theorem generate_eq_md_ok (rh : List (List Char × Json) → List Char)
    (ps : Json → List Char) (p d : Bool) (bp : List Char)
    (results : List (List Char × Json)) (fs : List (List Char)) (c : List Char)
    (hne : fs ≠ []) (hsup : ∀ f ∈ fs, f ∈ SUPPORTED_FORMATS)
    (hmd : fs.contains (chars "md") = true)
    (hok : mdRender ps results = .ok c) :
    generate rh ps p d bp results (some fs)
      = ⟨jsonFilesOf bp results fs ++ htmlFilesOf rh bp results fs
            ++ ((withSuffix bp (chars ".md"), FileData.text c)
                :: lateFiles p d bp results fs),
         some (rh results),
         .ok ((jsonFilesOf bp results fs ++ htmlFilesOf rh bp results fs
            ++ ((withSuffix bp (chars ".md"), FileData.text c)
                :: lateFiles p d bp results fs)).map Prod.fst)⟩ := by
  unfold generate
  rw [effectiveFormats_some fs hne]
  dsimp only
  rw [unsupported_nil fs hsup, if_pos rfl, hmd, if_pos rfl, hok]

theorem generate_eq_md_err (rh : List (List Char × Json) → List Char)
    (ps : Json → List Char) (p d : Bool) (bp : List Char)
    (results : List (List Char × Json)) (fs : List (List Char)) (e : Unit)
    (hne : fs ≠ []) (hsup : ∀ f ∈ fs, f ∈ SUPPORTED_FORMATS)
    (hmd : fs.contains (chars "md") = true)
    (herr : mdRender ps results = .error e) :
    generate rh ps p d bp results (some fs)
      = ⟨jsonFilesOf bp results fs ++ htmlFilesOf rh bp results fs,
         some (rh results), .error GenError.mdError⟩ := by
  unfold generate
  rw [effectiveFormats_some fs hne]
  dsimp only
  rw [unsupported_nil fs hsup, if_pos rfl, hmd, if_pos rfl, herr]

theorem mem_commaJoin_piece (x : List Char) (l : List (List Char)) (h : x ∈ l) :
    x <:+: commaJoin l := by
  induction l with
  | nil => cases h
  | cons y ys ih =>
    cases ys with
    | nil =>
      rw [List.mem_singleton] at h
      rw [h]
      exact List.infix_refl (commaJoin [y])
    | cons z zs =>
      rcases List.mem_cons.mp h with h1 | h2
      · rw [h1]
        exact ⟨[], chars ", " ++ commaJoin (z :: zs), by
          rw [show commaJoin (y :: z :: zs)
              = y ++ (chars ", " ++ commaJoin (z :: zs)) from rfl]
          simp⟩
      · obtain ⟨s, t, hst⟩ := ih h2
        exact ⟨y ++ chars ", " ++ s, t, by
          rw [show commaJoin (y :: z :: zs)
              = y ++ (chars ", " ++ commaJoin (z :: zs)) from rfl, ← hst]
          simp⟩

theorem infix_valueErrorMsg_left (x : List Char) (u : List (List Char))
    (h : x <:+: commaJoin u) : x <:+: valueErrorMsg u := by
  obtain ⟨s, t, hst⟩ := h
  exact ⟨chars "Unsupported report format(s): " ++ s,
    t ++ (chars ". Supported formats are: " ++ commaJoin SUPPORTED_FORMATS), by
      rw [valueErrorMsg, ← hst]
      simp⟩

theorem infix_valueErrorMsg_right (x : List Char) (u : List (List Char))
    (h : x <:+: commaJoin SUPPORTED_FORMATS) : x <:+: valueErrorMsg u := by
  obtain ⟨s, t, hst⟩ := h
  exact ⟨chars "Unsupported report format(s): " ++ commaJoin u
      ++ (chars ". Supported formats are: " ++ s), t, by
    rw [valueErrorMsg, ← hst]
    simp⟩

/-- C2: a formats list holding an identifier outside the supported vocabulary
makes generate raise a ValueError before any file is written (and before the
hypertext rendering): the outcome holds no write at all, and the message
names every unsupported identifier of the request and the whole supported
vocabulary. -/
theorem generate_unsupported_raises (rh : List (List Char × Json) → List Char)
    (ps : Json → List Char) (p d : Bool) (bp : List Char)
    (results : List (List Char × Json)) (fs : List (List Char)) (f0 : List Char)
    (hf0 : f0 ∈ fs) (hbad : f0 ∉ SUPPORTED_FORMATS) :
    (generate rh ps p d bp results (some fs)).files = []
  ∧ (generate rh ps p d bp results (some fs)).htmlRendered = none
  ∧ ∃ msg, (generate rh ps p d bp results (some fs)).result
        = .error (GenError.valueError msg)
      ∧ (∀ f ∈ fs, f ∉ SUPPORTED_FORMATS → f <:+: msg)
      ∧ ∀ s ∈ SUPPORTED_FORMATS, s <:+: msg := by
  rw [generate_eq_err rh ps p d bp results fs f0 hf0 hbad]
  refine ⟨rfl, rfl,
    valueErrorMsg ((fs.filter (fun f => !SUPPORTED_FORMATS.contains f)).dedup),
    rfl, ?_, ?_⟩
  · intro f hf hnf
    refine infix_valueErrorMsg_left f _ (mem_commaJoin_piece f _ ?_)
    rw [List.mem_dedup, List.mem_filter]
    refine ⟨hf, by simp; exact hnf⟩
  · intro s hs
    exact infix_valueErrorMsg_right s _ (mem_commaJoin_piece s _ hs)

theorem generate_unsupported_raises_witness :
    (chars "xml") ∈ [chars "xml"] ∧ (chars "xml") ∉ SUPPORTED_FORMATS ∧
    ((generate (fun _ => []) (fun _ => []) true true (chars "out") []
        (some [chars "xml"])).files = []
      ∧ (generate (fun _ => []) (fun _ => []) true true (chars "out") []
          (some [chars "xml"])).htmlRendered = none
      ∧ ∃ msg, (generate (fun _ => []) (fun _ => []) true true (chars "out") []
            (some [chars "xml"])).result = .error (GenError.valueError msg)
          ∧ (∀ f ∈ [chars "xml"], f ∉ SUPPORTED_FORMATS → f <:+: msg)
          ∧ ∀ s ∈ SUPPORTED_FORMATS, s <:+: msg) :=
  ⟨List.mem_singleton.mpr rfl, by decide,
    generate_unsupported_raises (fun _ => []) (fun _ => []) true true (chars "out")
      [] [chars "xml"] (chars "xml") (List.mem_singleton.mpr rfl) (by decide)⟩

theorem pathName_suffix (p : List Char) : pathName p <:+ p := by
  rw [pathName]
  conv_rhs => rw [← List.reverse_reverse p]
  exact List.reverse_suffix.mpr (List.takeWhile_prefix _)

theorem take_append_pathName (p : List Char) :
    p.take (p.length - (pathName p).length) ++ pathName p = p := by
  obtain ⟨s, hs⟩ := pathName_suffix p
  generalize hg : pathName p = n at hs ⊢
  rw [← hs, List.length_append, Nat.add_sub_cancel, List.take_left]

theorem withSuffix_append (p ext : List Char)
    (h : stripSuffix (pathName p) = pathName p) :
    withSuffix p ext = p ++ ext := by
  rw [withSuffix, h, ← List.append_assoc, take_append_pathName]

theorem withSuffix_ext_inj (p e1 e2 : List Char)
    (h : withSuffix p e1 = withSuffix p e2) : e1 = e2 := by
  rw [withSuffix, withSuffix] at h
  exact List.append_cancel_left (List.append_cancel_left h)

/-- C1 counterexample: with the valid formats list [md] and a result document
whose parser_results entry is the truthy non-dict 1, the md branch calls get
on an int and the AttributeError escapes generate. -/
theorem generate_md_raises_cex :
    (chars "md") ∈ SUPPORTED_FORMATS
  ∧ (generate (fun _ => []) (fun _ => []) true true (chars "out")
        [(chars "parser_results", Json.num 1)] (some [chars "md"])).result
      = .error GenError.mdError :=
  ⟨by decide, rfl⟩

/-- C1: amended — for a nonempty formats list drawn from the supported
vocabulary, generate raises only out of the markdown branch; whenever the
markdown rendering raises no exception (in particular when md is not
requested), generate returns normally, and the returned list is exactly the
paths of the files it wrote, in order — a format whose optional backend is
unavailable is skipped and excluded from the list rather than reported. -/
theorem generate_valid_no_raise (rh : List (List Char × Json) → List Char)
    (ps : Json → List Char) (p d : Bool) (bp : List Char)
    (results : List (List Char × Json)) (fs : List (List Char))
    (hne : fs ≠ []) (hsup : ∀ f ∈ fs, f ∈ SUPPORTED_FORMATS)
    (hmd : fs.contains (chars "md") = true → ∃ c, mdRender ps results = .ok c) :
    (generate rh ps p d bp results (some fs)).result
      = .ok ((generate rh ps p d bp results (some fs)).files.map Prod.fst) := by
  cases hm : fs.contains (chars "md") with
  | false => rw [generate_eq_no_md rh ps p d bp results fs hne hsup hm]
  | true =>
    obtain ⟨c, hc⟩ := hmd hm
    rw [generate_eq_md_ok rh ps p d bp results fs c hne hsup hm hc]

theorem generate_valid_no_raise_witness :
    (generate (fun _ => []) (fun _ => []) true true (chars "out") []
        (some [chars "json"])).result
      = .ok ((generate (fun _ => []) (fun _ => []) true true (chars "out") []
          (some [chars "json"])).files.map Prod.fst) :=
  generate_valid_no_raise (fun _ => []) (fun _ => []) true true (chars "out") []
    [chars "json"] (by decide) (by decide) (fun h => absurd h (by decide))

/-- C4: when json is among the requested (all-supported) formats, generate
writes the indented JSON dump of the result document at the .json path, and
parsing that artifact text yields a value equal to the document — including
the empty document. -/
theorem json_artifact_roundtrip (rh : List (List Char × Json) → List Char)
    (ps : Json → List Char) (p d : Bool) (bp : List Char)
    (results : List (List Char × Json)) (fs : List (List Char))
    (hsup : ∀ f ∈ fs, f ∈ SUPPORTED_FORMATS) (hjson : (chars "json") ∈ fs) :
    (withSuffix bp (chars ".json"), FileData.text (dumps results))
        ∈ (generate rh ps p d bp results (some fs)).files
  ∧ loads (dumps results) = some (Json.obj results) := by
  have hne : fs ≠ [] := by
    intro h
    rw [h] at hjson
    cases hjson
  have hjmem : (withSuffix bp (chars ".json"), FileData.text (dumps results))
      ∈ jsonFilesOf bp results fs := by
    rw [jsonFilesOf, contains_true_of_mem fs _ hjson, if_pos rfl]
    exact List.mem_singleton.mpr rfl
  refine ⟨?_, loads_dumpsVal (Json.obj results)⟩
  cases hmd : fs.contains (chars "md") with
  | false =>
    rw [generate_eq_no_md rh ps p d bp results fs hne hsup hmd]
    exact List.mem_append_left _ (List.mem_append_left _ hjmem)
  | true =>
    cases hR : mdRender ps results with
    | ok c =>
      rw [generate_eq_md_ok rh ps p d bp results fs c hne hsup hmd hR]
      exact List.mem_append_left _ (List.mem_append_left _ hjmem)
    | error e =>
      rw [generate_eq_md_err rh ps p d bp results fs e hne hsup hmd hR]
      exact List.mem_append_left _ hjmem

theorem json_artifact_roundtrip_witness :
    (withSuffix (chars "out") (chars ".json"), FileData.text (dumps []))
        ∈ (generate (fun _ => []) (fun _ => []) true true (chars "out") []
            (some [chars "json"])).files
  ∧ loads (dumps []) = some (Json.obj []) :=
  json_artifact_roundtrip (fun _ => []) (fun _ => []) true true (chars "out") []
    [chars "json"] (by decide) (List.mem_singleton.mpr rfl)

theorem mem_jsonFilesOf_path (bp : List Char) (results : List (List Char × Json))
    (fs : List (List Char)) (q : List Char)
    (h : q ∈ (jsonFilesOf bp results fs).map Prod.fst) :
    q = withSuffix bp (chars ".json") := by
  by_cases hc : fs.contains (chars "json") = true
  · rw [jsonFilesOf, if_pos hc] at h
    simpa using h
  · rw [jsonFilesOf, if_neg hc] at h
    cases h

theorem mem_htmlFilesOf_path (rh : List (List Char × Json) → List Char)
    (bp : List Char) (results : List (List Char × Json))
    (fs : List (List Char)) (q : List Char)
    (h : q ∈ (htmlFilesOf rh bp results fs).map Prod.fst) :
    q = withSuffix bp (chars ".html") := by
  by_cases hc : fs.contains (chars "html") = true
  · rw [htmlFilesOf, if_pos hc] at h
    simpa using h
  · rw [htmlFilesOf, if_neg hc] at h
    cases h

theorem mem_lateFiles_path (p d : Bool) (bp : List Char)
    (results : List (List Char × Json)) (fs : List (List Char)) (q : List Char)
    (h : q ∈ (lateFiles p d bp results fs).map Prod.fst) :
    q = withSuffix bp (chars ".pdf") ∨ q = withSuffix bp (chars ".docx") := by
  rw [lateFiles, List.map_append] at h
  rcases List.mem_append.mp h with h1 | h1
  · left
    by_cases hc : (fs.contains (chars "pdf") && p) = true
    · rw [if_pos hc] at h1
      simpa using h1
    · rw [if_neg hc] at h1
      cases h1
  · right
    by_cases hc : (fs.contains (chars "docx") && d) = true
    · rw [if_pos hc] at h1
      simpa using h1
    · rw [if_neg hc] at h1
      cases h1

/-- C5 counterexample: with base path report.v1 and a json request, the
artifact lands at report.json — with_suffix replaced the final component's
existing suffix instead of appending. -/
theorem generate_path_replaces_cex :
    (generate (fun _ => []) (fun _ => []) true true (chars "report.v1") []
        (some [chars "json"])).files.map Prod.fst = [chars "report.json"]
  ∧ chars "report.json" ≠ chars "report.v1" ++ chars ".json" :=
  ⟨rfl, by decide⟩

/-- C5: amended — each artifact of a validated request is written at
with_suffix of the base path for its format's extension, one file per
produced format; the extension is appended to the base path exactly when the
base path's final component carries no pathlib suffix, and replaces that
suffix otherwise. -/
theorem generate_paths_with_suffix (rh : List (List Char × Json) → List Char)
    (ps : Json → List Char) (p d : Bool) (bp : List Char)
    (results : List (List Char × Json)) (fs : List (List Char))
    (hsup : ∀ f ∈ fs, f ∈ SUPPORTED_FORMATS) :
    (∀ q ∈ (generate rh ps p d bp results (some fs)).files.map Prod.fst,
        ∃ ext ∈ [chars ".json", chars ".html", chars ".md",
            chars ".pdf", chars ".docx"], q = withSuffix bp ext)
  ∧ (stripSuffix (pathName bp) = pathName bp →
      ∀ ext, withSuffix bp ext = bp ++ ext) := by
  refine ⟨?_, fun h ext => withSuffix_append bp ext h⟩
  intro q hq
  by_cases hne : fs = []
  · rw [hne] at hsup hq
    rw [show generate rh ps p d bp results (some [])
        = generate rh ps p d bp results (some [chars "json", chars "html"])
        from rfl] at hq
    rw [generate_eq_no_md rh ps p d bp results [chars "json", chars "html"]
      (by decide) (by decide) (by decide)] at hq
    rw [List.map_append, List.map_append] at hq
    rcases List.mem_append.mp hq with h1 | h1
    · rcases List.mem_append.mp h1 with h2 | h2
      · exact ⟨chars ".json", by decide, mem_jsonFilesOf_path _ _ _ _ h2⟩
      · exact ⟨chars ".html", by decide, mem_htmlFilesOf_path _ _ _ _ _ h2⟩
    · rcases mem_lateFiles_path _ _ _ _ _ _ h1 with h2 | h2
      · exact ⟨chars ".pdf", by decide, h2⟩
      · exact ⟨chars ".docx", by decide, h2⟩
  · have hsplit : ∀ r ∈ (jsonFilesOf bp results fs ++ htmlFilesOf rh bp results fs
        ++ lateFiles p d bp results fs).map Prod.fst,
        ∃ ext ∈ [chars ".json", chars ".html", chars ".md",
            chars ".pdf", chars ".docx"], r = withSuffix bp ext := by
      intro r hr
      rw [List.map_append, List.map_append] at hr
      rcases List.mem_append.mp hr with h1 | h1
      · rcases List.mem_append.mp h1 with h2 | h2
        · exact ⟨chars ".json", by decide, mem_jsonFilesOf_path _ _ _ _ h2⟩
        · exact ⟨chars ".html", by decide, mem_htmlFilesOf_path _ _ _ _ _ h2⟩
      · rcases mem_lateFiles_path _ _ _ _ _ _ h1 with h2 | h2
        · exact ⟨chars ".pdf", by decide, h2⟩
        · exact ⟨chars ".docx", by decide, h2⟩
    cases hmd : fs.contains (chars "md") with
    | false =>
      rw [generate_eq_no_md rh ps p d bp results fs hne hsup hmd] at hq
      exact hsplit q hq
    | true =>
      cases hR : mdRender ps results with
      | ok c =>
        rw [generate_eq_md_ok rh ps p d bp results fs c hne hsup hmd hR] at hq
        rw [List.map_append, List.map_append, List.map_cons] at hq
        rcases List.mem_append.mp hq with h1 | h1
        · rcases List.mem_append.mp h1 with h2 | h2
          · exact ⟨chars ".json", by decide, mem_jsonFilesOf_path _ _ _ _ h2⟩
          · exact ⟨chars ".html", by decide, mem_htmlFilesOf_path _ _ _ _ _ h2⟩
        · rcases List.mem_cons.mp h1 with h2 | h2
          · exact ⟨chars ".md", by decide, h2⟩
          · rcases mem_lateFiles_path _ _ _ _ _ _ h2 with h3 | h3
            · exact ⟨chars ".pdf", by decide, h3⟩
            · exact ⟨chars ".docx", by decide, h3⟩
      | error e =>
        rw [generate_eq_md_err rh ps p d bp results fs e hne hsup hmd hR] at hq
        rw [List.map_append] at hq
        rcases List.mem_append.mp hq with h1 | h1
        · exact ⟨chars ".json", by decide, mem_jsonFilesOf_path _ _ _ _ h1⟩
        · exact ⟨chars ".html", by decide, mem_htmlFilesOf_path _ _ _ _ _ h1⟩

theorem generate_paths_with_suffix_witness :
    (∀ q ∈ (generate (fun _ => []) (fun _ => []) true true (chars "out") []
        (some [chars "json"])).files.map Prod.fst,
      ∃ ext ∈ [chars ".json", chars ".html", chars ".md",
          chars ".pdf", chars ".docx"], q = withSuffix (chars "out") ext)
  ∧ (stripSuffix (pathName (chars "out")) = pathName (chars "out") →
      ∀ ext, withSuffix (chars "out") ext = chars "out" ++ ext) :=
  generate_paths_with_suffix (fun _ => []) (fun _ => []) true true (chars "out")
    [] [chars "json"] (by decide)

/-- C6 counterexample: two calls differing only in the hypertext renderer
write different html artifacts but byte-identical PDF bodies, and the PDF
body is the wrapped markdown-like text — the hypertext rendering is not the
PDF fallback body. -/
theorem pdf_not_html_cex :
    (generate (fun _ => chars "A") (fun _ => []) true true (chars "out") []
        (some [chars "html", chars "pdf"])).files
      = [(chars "out.html", FileData.text (chars "A")),
         (chars "out.pdf", FileData.pdfDoc [chars "# Codebase Analysis Report"])]
  ∧ (generate (fun _ => chars "B") (fun _ => []) true true (chars "out") []
        (some [chars "html", chars "pdf"])).files
      = [(chars "out.html", FileData.text (chars "B")),
         (chars "out.pdf", FileData.pdfDoc [chars "# Codebase Analysis Report"])]
  ∧ chars "A" ≠ chars "B"
  ∧ pdfChunks [] = [chars "# Codebase Analysis Report"] :=
  ⟨rfl, rfl, by decide, rfl⟩

/-- C6: amended — on every validated call the hypertext content is computed
internally even when html is not requested, and the html artifact is written
exactly when html is requested; the page-layout (PDF) body, when produced, is
the soft-wrapped markdown-like rendering of the results, not the hypertext
rendering. -/
theorem html_always_rendered (rh : List (List Char × Json) → List Char)
    (ps : Json → List Char) (p d : Bool) (bp : List Char)
    (results : List (List Char × Json)) (fs : List (List Char))
    (hne : fs ≠ []) (hsup : ∀ f ∈ fs, f ∈ SUPPORTED_FORMATS) :
    (generate rh ps p d bp results (some fs)).htmlRendered = some (rh results)
  ∧ ((withSuffix bp (chars ".html"), FileData.text (rh results))
        ∈ (generate rh ps p d bp results (some fs)).files
      ↔ (chars "html") ∈ fs)
  ∧ ((chars "pdf") ∈ fs → p = true →
      (fs.contains (chars "md") = true → ∃ c, mdRender ps results = .ok c) →
      (withSuffix bp (chars ".pdf"), FileData.pdfDoc (pdfChunks results))
        ∈ (generate rh ps p d bp results (some fs)).files) := by
  have hA : (chars "html") ∈ fs →
      (withSuffix bp (chars ".html"), FileData.text (rh results))
        ∈ htmlFilesOf rh bp results fs := by
    intro h
    rw [htmlFilesOf, contains_true_of_mem fs _ h, if_pos rfl]
    exact List.mem_singleton.mpr rfl
  have hB : (withSuffix bp (chars ".html"), FileData.text (rh results))
      ∈ htmlFilesOf rh bp results fs → (chars "html") ∈ fs := by
    intro h
    by_cases hc : fs.contains (chars "html") = true
    · exact List.elem_iff.mp hc
    · rw [htmlFilesOf, if_neg hc] at h
      cases h
  have hJ : (withSuffix bp (chars ".html"), FileData.text (rh results))
      ∈ jsonFilesOf bp results fs → False := by
    intro h
    by_cases hc : fs.contains (chars "json") = true
    · rw [jsonFilesOf, if_pos hc] at h
      have h2 := congrArg Prod.fst (List.mem_singleton.mp h)
      exact absurd (withSuffix_ext_inj bp _ _ h2) (by decide)
    · rw [jsonFilesOf, if_neg hc] at h
      cases h
  have hL : ∀ (q : List Char) (c : List Char),
      (q, FileData.text c) ∈ lateFiles p d bp results fs → False := by
    intro q c h
    rw [lateFiles] at h
    rcases List.mem_append.mp h with h1 | h1
    · by_cases hc : (fs.contains (chars "pdf") && p) = true
      · rw [if_pos hc] at h1
        exact FileData.noConfusion (congrArg Prod.snd (List.mem_singleton.mp h1))
      · rw [if_neg hc] at h1
        cases h1
    · by_cases hc : (fs.contains (chars "docx") && d) = true
      · rw [if_pos hc] at h1
        exact FileData.noConfusion (congrArg Prod.snd (List.mem_singleton.mp h1))
      · rw [if_neg hc] at h1
        cases h1
  have hPdf : (chars "pdf") ∈ fs → p = true →
      (withSuffix bp (chars ".pdf"), FileData.pdfDoc (pdfChunks results))
        ∈ lateFiles p d bp results fs := by
    intro hp hpt
    rw [lateFiles]
    refine List.mem_append_left _ ?_
    rw [contains_true_of_mem fs _ hp, hpt,
      if_pos (show (true && true) = true from rfl)]
    exact List.mem_singleton.mpr rfl
  cases hmd : fs.contains (chars "md") with
  | false =>
    rw [generate_eq_no_md rh ps p d bp results fs hne hsup hmd]
    refine ⟨rfl, ⟨?_, ?_⟩, ?_⟩
    · intro h
      rcases List.mem_append.mp h with h1 | h1
      · rcases List.mem_append.mp h1 with h2 | h2
        · exact (hJ h2).elim
        · exact hB h2
      · exact (hL _ _ h1).elim
    · intro h
      exact List.mem_append_left _ (List.mem_append_right _ (hA h))
    · intro hp hpt hmdok
      exact List.mem_append_right _ (hPdf hp hpt)
  | true =>
    cases hR : mdRender ps results with
    | ok c =>
      rw [generate_eq_md_ok rh ps p d bp results fs c hne hsup hmd hR]
      refine ⟨rfl, ⟨?_, ?_⟩, ?_⟩
      · intro h
        rcases List.mem_append.mp h with h1 | h1
        · rcases List.mem_append.mp h1 with h2 | h2
          · exact (hJ h2).elim
          · exact hB h2
        · rcases List.mem_cons.mp h1 with h2 | h2
          · have h3 := congrArg Prod.fst h2
            exact absurd (withSuffix_ext_inj bp _ _ h3) (by decide)
          · exact (hL _ _ h2).elim
      · intro h
        exact List.mem_append_left _ (List.mem_append_right _ (hA h))
      · intro hp hpt hmdok
        exact List.mem_append_right _ (List.mem_cons_of_mem _ (hPdf hp hpt))
    | error e =>
      rw [generate_eq_md_err rh ps p d bp results fs e hne hsup hmd hR]
      refine ⟨rfl, ⟨?_, ?_⟩, ?_⟩
      · intro h
        rcases List.mem_append.mp h with h1 | h1
        · exact (hJ h1).elim
        · exact hB h1
      · intro h
        exact List.mem_append_right _ (hA h)
      · intro hp hpt hmdok
        obtain ⟨c, hc⟩ := hmdok rfl
        exact Except.noConfusion hc

theorem html_always_rendered_witness :
    ((generate (fun _ => ([] : List Char)) (fun _ => ([] : List Char)) true true
        (chars "out") [] (some [chars "pdf"])).htmlRendered = some ([] : List Char)
  ∧ ((withSuffix (chars "out") (chars ".html"), FileData.text ([] : List Char))
        ∈ (generate (fun _ => ([] : List Char)) (fun _ => ([] : List Char)) true true
            (chars "out") [] (some [chars "pdf"])).files
      ↔ (chars "html") ∈ [chars "pdf"])
  ∧ ((chars "pdf") ∈ [chars "pdf"] → true = true →
      (([chars "pdf"] : List (List Char)).contains (chars "md") = true →
        ∃ c, mdRender (fun _ => ([] : List Char)) [] = .ok c) →
      (withSuffix (chars "out") (chars ".pdf"), FileData.pdfDoc (pdfChunks []))
        ∈ (generate (fun _ => ([] : List Char)) (fun _ => ([] : List Char)) true true
            (chars "out") [] (some [chars "pdf"])).files)) :=
  html_always_rendered (fun _ => ([] : List Char)) (fun _ => ([] : List Char))
    true true (chars "out") [] [chars "pdf"] (by decide) (by decide)

end Report

namespace Orch

open PyJson

theorem find?_cons_eq {α : Type} (p : α → Bool) (a : α) (as : List α) :
    (a :: as).find? p = if p a then some a else as.find? p := by
  cases hpa : p a with
  | true =>
    rw [if_pos rfl]
    exact List.find?_cons_of_pos _ hpa
  | false =>
    rw [if_neg Bool.false_ne_true]
    exact List.find?_cons_of_neg _ (by simp [hpa])

theorem jLookup_cons (a : List Char × Json) (as : List (List Char × Json))
    (q : List Char) :
    jLookup (a :: as) q = if a.1 = q then some a.2 else jLookup as q := by
  rw [jLookup, jLookup]
  simp only [find?_cons_eq]
  by_cases h : a.1 = q
  · rw [if_pos (beq_iff_eq.mpr h), if_pos h]
    rfl
  · rw [if_neg (by simpa using h), if_neg h]

theorem jLookup_append (l1 l2 : List (List Char × Json)) (k : List Char) :
    jLookup (l1 ++ l2) k
      = match jLookup l1 k with
        | some v => some v
        | none => jLookup l2 k := by
  induction l1 with
  | nil =>
    rw [List.nil_append]
    rfl
  | cons a as ih =>
    rw [List.cons_append, jLookup_cons, jLookup_cons]
    by_cases h : a.1 = k
    · rw [if_pos h, if_pos h]
    · rw [if_neg h, if_neg h, ih]

theorem jLookup_none_of_not_mem (acc : List (List Char × Json)) (k : List Char)
    (h : k ∉ acc.map Prod.fst) : jLookup acc k = none := by
  induction acc with
  | nil => rfl
  | cons a as ih =>
    have hne : ¬ a.1 = k := fun he => h (by rw [← he]; simp)
    rw [jLookup_cons, if_neg hne]
    exact ih (fun hm => h (by simp [hm]))

theorem jLookup_isSome_of_mem (acc : List (List Char × Json)) (k : List Char)
    (h : k ∈ acc.map Prod.fst) : ∃ w, jLookup acc k = some w := by
  induction acc with
  | nil => cases h
  | cons a as ih =>
    rw [jLookup_cons]
    by_cases hak : a.1 = k
    · rw [if_pos hak]
      exact ⟨a.2, rfl⟩
    · rw [if_neg hak]
      have h2 : k = a.1 ∨ k ∈ as.map Prod.fst := by simpa using h
      rcases h2 with h1 | h1
      · exact absurd h1.symm hak
      · exact ih h1

theorem lookup_map_overwrite (k : List Char) (v : Json) :
    ∀ (acc : List (List Char × Json)) (q : List Char),
    jLookup (acc.map (fun kv => if kv.1 == k then (kv.1, v) else kv)) q
      = if q = k then (jLookup acc k).map (fun _ => v) else jLookup acc q := by
  intro acc
  induction acc with
  | nil =>
    intro q
    by_cases h : q = k
    · rw [if_pos h]
      rfl
    · rw [if_neg h]
      rfl
  | cons a as ih =>
    intro q
    rw [List.map_cons]
    by_cases hak : a.1 = k
    · rw [if_pos (beq_iff_eq.mpr hak)]
      by_cases hq : q = k
      · rw [jLookup_cons, if_pos hq, jLookup_cons,
          if_pos (show (a.1, v).1 = q from hak.trans hq.symm), if_pos hak]
        rfl
      · rw [jLookup_cons, if_neg hq, jLookup_cons,
          if_neg (show ¬ (a.1, v).1 = q from
            fun he => hq ((show a.1 = q from he).symm.trans hak)),
          if_neg (fun he : a.1 = q => hq (he.symm.trans hak)), ih q, if_neg hq]
    · rw [if_neg (show ¬ (a.1 == k) = true from by simpa using hak)]
      by_cases hq : q = k
      · rw [jLookup_cons, if_pos hq, jLookup_cons,
          if_neg (fun he : a.1 = q => hak (he.trans hq)), ih q, if_pos hq,
          if_neg hak]
      · rw [jLookup_cons, if_neg hq, jLookup_cons, ih q, if_neg hq]

theorem mem_keys_iff_any (acc : List (List Char × Json)) (k : List Char) :
    acc.any (fun kv => kv.1 == k) = true ↔ k ∈ acc.map Prod.fst := by
  rw [List.any_eq_true]
  constructor
  · rintro ⟨kv, hkv, hbeq⟩
    exact List.mem_map.mpr ⟨kv, hkv, beq_iff_eq.mp hbeq⟩
  · intro h
    obtain ⟨kv, hkv, heq⟩ := List.mem_map.mp h
    exact ⟨kv, hkv, beq_iff_eq.mpr heq⟩

theorem overwrite_keys (k : List Char) (v : Json)
    (acc : List (List Char × Json)) :
    (acc.map (fun kv => if kv.1 == k then (kv.1, v) else kv)).map Prod.fst
      = acc.map Prod.fst := by
  rw [List.map_map]
  refine List.map_congr_left ?_
  intro kv hkv
  by_cases h : (kv.1 == k) = true
  · simp only [Function.comp_apply, if_pos h]
  · simp only [Function.comp_apply, if_neg h]

theorem dictInsert_keys (acc : List (List Char × Json)) (k : List Char) (v : Json)
    (q : List Char) :
    q ∈ (dictInsert acc k v).map Prod.fst ↔ q = k ∨ q ∈ acc.map Prod.fst := by
  rw [dictInsert]
  by_cases h : acc.any (fun kv => kv.1 == k) = true
  · rw [if_pos h, overwrite_keys]
    constructor
    · exact Or.inr
    · rintro (rfl | h1)
      · exact (mem_keys_iff_any acc q).mp h
      · exact h1
  · rw [if_neg h, List.map_append, List.mem_append]
    constructor
    · rintro (h1 | h1)
      · exact Or.inr h1
      · exact Or.inl (by simpa using h1)
    · rintro (rfl | h1)
      · exact Or.inr (by simp)
      · exact Or.inl h1

theorem dictInsert_nodup (acc : List (List Char × Json)) (k : List Char) (v : Json)
    (h : (acc.map Prod.fst).Nodup) : ((dictInsert acc k v).map Prod.fst).Nodup := by
  rw [dictInsert]
  by_cases hany : acc.any (fun kv => kv.1 == k) = true
  · rw [if_pos hany, overwrite_keys]
    exact h
  · rw [if_neg hany, List.map_append, List.nodup_append]
    refine ⟨h, by simp, ?_⟩
    intro q hq
    simp only [List.map_cons, List.map_nil, List.mem_singleton]
    intro hqk
    rw [hqk] at hq
    exact hany ((mem_keys_iff_any acc k).mpr hq)

theorem dictInsert_lookup (acc : List (List Char × Json)) (k : List Char) (v : Json)
    (q : List Char) :
    jLookup (dictInsert acc k v) q = if q = k then some v else jLookup acc q := by
  rw [dictInsert]
  by_cases hany : acc.any (fun kv => kv.1 == k) = true
  · rw [if_pos hany, lookup_map_overwrite]
    by_cases hq : q = k
    · rw [if_pos hq, if_pos hq]
      obtain ⟨w, hw⟩ :=
        jLookup_isSome_of_mem acc k ((mem_keys_iff_any acc k).mp hany)
      rw [hw]
      rfl
    · rw [if_neg hq, if_neg hq]
  · rw [if_neg hany, jLookup_append]
    have hnone : k ∉ acc.map Prod.fst := fun hmem =>
      hany ((mem_keys_iff_any acc k).mpr hmem)
    by_cases hq : q = k
    · rw [if_pos hq, hq, jLookup_none_of_not_mem acc k hnone]
      rw [jLookup_cons, if_pos rfl]
    · rw [if_neg hq]
      cases hl : jLookup acc q with
      | some w => rfl
      | none =>
        rw [jLookup_cons, if_neg (fun he : (k, v).1 = q => hq he.symm)]
        rfl

theorem lastAssign_cons (a : AgentModel) (rest : List AgentModel) (k : List Char) :
    lastAssign (a :: rest) k
      = match lastAssign rest k with
        | some v => some v
        | none => if a.name = k then some a.result else none := by
  simp only [lastAssign, List.reverse_cons, List.find?_append, find?_cons_eq,
    List.find?_nil]
  cases hf : rest.reverse.find? (fun x => x.name == k) with
  | some x => rfl
  | none =>
    by_cases h : a.name = k
    · rw [if_pos (beq_iff_eq.mpr h), if_pos h]
      rfl
    · rw [if_neg (by simpa using h), if_neg h]
      rfl

theorem buildResults_spec (agents : List AgentModel) :
    ∀ acc : List (List Char × Json), (acc.map Prod.fst).Nodup →
      ((buildResults agents acc).map Prod.fst).Nodup
    ∧ (∀ k, k ∈ (buildResults agents acc).map Prod.fst ↔
          k ∈ agents.map AgentModel.name ∨ k ∈ acc.map Prod.fst)
    ∧ (∀ k, jLookup (buildResults agents acc) k
          = match lastAssign agents k with
            | some v => some v
            | none => jLookup acc k) := by
  induction agents with
  | nil =>
    intro acc hnd
    refine ⟨hnd, fun k => by simp [buildResults], fun k => ?_⟩
    rw [show lastAssign [] k = none from rfl]
    rfl
  | cons a rest ih =>
    intro acc hnd
    obtain ⟨h1, h2, h3⟩ :=
      ih (dictInsert acc a.name a.result) (dictInsert_nodup acc a.name a.result hnd)
    refine ⟨h1, fun k => ?_, fun k => ?_⟩
    · rw [show buildResults (a :: rest) acc
          = buildResults rest (dictInsert acc a.name a.result) from rfl, h2 k,
        dictInsert_keys, List.map_cons, List.mem_cons]
      constructor
      · rintro (hx | rfl | hx)
        · exact Or.inl (Or.inr hx)
        · exact Or.inl (Or.inl rfl)
        · exact Or.inr hx
      · rintro ((rfl | hx) | hx)
        · exact Or.inr (Or.inl rfl)
        · exact Or.inl hx
        · exact Or.inr (Or.inr hx)
    · rw [show buildResults (a :: rest) acc
          = buildResults rest (dictInsert acc a.name a.result) from rfl, h3 k,
        lastAssign_cons, dictInsert_lookup]
      cases lastAssign rest k with
      | some v => rfl
      | none =>
        by_cases h : a.name = k
        · rw [if_pos h, if_pos h.symm]
        · rw [if_neg h, if_neg (fun he => h he.symm)]

/-- C3: running the orchestrator executes the registered units one by one in
registration order, produces a result mapping without duplicate keys whose
key set is exactly the set of registered unit names and whose entry for each
name is the value of the last registered unit with that name (later units
overwrite earlier ones), and invokes the report generator exactly once, after
all units, with the consolidated results; with zero units the mapping is
empty and the generator is still invoked. -/
theorem orchestrator_run_spec (agents : List AgentModel) (outputPath : List Char)
    (formats : Option (List (List Char))) :
    ((orchRun agents outputPath formats).1.map Prod.fst).Nodup
  ∧ (∀ k, k ∈ (orchRun agents outputPath formats).1.map Prod.fst
        ↔ k ∈ agents.map AgentModel.name)
  ∧ (∀ k, jLookup (orchRun agents outputPath formats).1 k = lastAssign agents k)
  ∧ (orchRun agents outputPath formats).2
      = agents.map (fun a => OrchEvent.ranAgent a.name)
        ++ [OrchEvent.calledGenerator outputPath
             (orchRun agents outputPath formats).1 formats]
  ∧ ((orchRun agents outputPath formats).2.filter isGenCall)
      = [OrchEvent.calledGenerator outputPath
          (orchRun agents outputPath formats).1 formats]
  ∧ (agents = [] → (orchRun agents outputPath formats).1 = []) := by
  obtain ⟨h1, h2, h3⟩ := buildResults_spec agents [] (by simp)
  have hres : (orchRun agents outputPath formats).1 = buildResults agents [] := rfl
  have hev : (orchRun agents outputPath formats).2
      = agents.map (fun a => OrchEvent.ranAgent a.name)
        ++ [OrchEvent.calledGenerator outputPath (buildResults agents []) formats] :=
    rfl
  refine ⟨hres ▸ h1, ?_, ?_, ?_, ?_, ?_⟩
  · intro k
    rw [hres, h2 k]
    simp
  · intro k
    rw [hres, h3 k]
    cases lastAssign agents k with
    | some v => rfl
    | none => rfl
  · rw [hev, hres]
  · rw [hev, hres, List.filter_append]
    have hzero : (agents.map (fun a => OrchEvent.ranAgent a.name)).filter isGenCall
        = [] := by
      rw [List.filter_eq_nil]
      intro x hx
      obtain ⟨a, ha, rfl⟩ := List.mem_map.mp hx
      simp [isGenCall]
    rw [hzero, List.nil_append]
    rfl
  · intro h
    rw [hres, h]
    rfl

end Orch

end CodebaseAnalysis
